import Mathlib

/-!
Verification of the `ukb` semantic-relatedness graph engine core (`mcrGraph.h`).

The repository ships the class declaration `Mcr` (vertex/edge container over a
Boost `adjacency_list`, relation-type registry, binary snapshotting, BFS,
Dijkstra, personalized PageRank, and an out-coefficient cache).  The member
function bodies are not part of the available sources, so every operation
below is modelled from the specification document, while the data layout
(vertex name/gloss/flags properties, `float` edge weight, `boost::uint32_t`
relation mask, `rtypes` vector, `relsSource` set, `notes` vector, `out_coefs`
vector with `coef_status` tag) follows the header.

Modelling conventions:
* vertex descriptors are `Nat` indices into the vertex list (`boost::vecS`);
* edge descriptors are `Nat` indices into the edge list;
* `float` is modelled as `ℚ`;
* `boost::uint32_t` relation masks are `Nat` values kept below `2 ^ 32`
  because every assigned bit index is below the mask width 32, so no
  wraparound can occur;
* `std::map` / `std::set` are modelled as association lists / lists with
  insert-if-absent semantics (observations only use lookup and membership).
-/

namespace Ukb

/-- Vertex payload of `McrGraph`: `vertex_name`, `vertex_gloss` and the
`vertex_flags` byte (`is_word = 1`). -/
structure Vertex where
  vname : String
  gloss : String
  flags : Nat
deriving DecidableEq

/-- Edge payload of `McrGraph`: endpoints (`boost::vecS` vertex indices),
`edge_weight` (`float`, modelled as `ℚ`) and the `edge_rtype` 32-bit
relation mask. -/
structure Edge where
  esrc : Nat
  etgt : Nat
  eweight : ℚ
  ertype : Nat
deriving DecidableEq

/-- Errors of the engine, from the specification's error taxonomy. -/
inductive UkbError where
  | RegistryFull
  | SnapshotCorrupt
  | SnapshotVersionUnsupported
deriving DecidableEq

/-- The state held by the `Mcr` class: graph, relation-source set, the two
name-to-vertex maps, registered relation types, annotation notes, and the
out-coefficient cache with its status tag (0 invalid, 1 unweighted,
2 weighted). -/
structure Mcr where
  verts : List Vertex
  edges : List Edge
  relsSource : List String
  synsetMap : List (String × Nat)
  wordMap : List (String × Nat)
  rtypes : List String
  notes : List String
  out_coefs : List ℚ
  coef_status : Nat
deriving DecidableEq

/-- The freshly constructed (empty) graph; `coef_status` starts at 0 as in
the `Mcr` constructor. -/
def emptyMcr : Mcr :=
  { verts := [], edges := [], relsSource := [], synsetMap := [], wordMap := [],
    rtypes := [], notes := [], out_coefs := [], coef_status := 0 }

/-- Number of vertices: `size() { return num_vertices(g); }`. -/
def Mcr.size (m : Mcr) : Nat := m.verts.length

/-- Association-list lookup used for `synsetMap` / `wordMap`. -/
def mapLookup (mp : List (String × Nat)) (s : String) : Option Nat :=
  match mp with
  | [] => none
  | (k, v) :: rest => if k = s then some v else mapLookup rest s

/-- Map insertion used when a fresh vertex is created: the name is absent, a
binding is appended. -/
def mapInsert (mp : List (String × Nat)) (s : String) (v : Nat) :
    List (String × Nat) :=
  match mapLookup mp s with
  | some _ => mp
  | none => mp ++ [(s, v)]

/-- Modelled from the spec: the private `InsertNode(name, flags)` helper of
`Mcr`, whose body is not in the sources.  A freshly inserted vertex has empty
gloss and no edges, and vertex/edge additions invalidate the normalization
cache (the spec invalidates it whenever topology changes). -/
def Mcr.insertNode (m : Mcr) (name : String) (flags : Nat) : Mcr × Nat :=
  ({ m with verts := m.verts ++ [⟨name, "", flags⟩], coef_status := 0 },
   m.verts.length)

/-- Modelled from the spec: `find_or_insert_synset`, idempotent
lookup-or-create in the concept namespace via `synsetMap`; the body is not
in the sources. -/
def Mcr.find_or_insert_synset (m : Mcr) (s : String) : Mcr × Nat :=
  match mapLookup m.synsetMap s with
  | some v => (m, v)
  | none =>
    let p := m.insertNode s 0
    ({ p.1 with synsetMap := mapInsert m.synsetMap s p.2 }, p.2)

/-- Modelled from the spec: `find_or_insert_word`, idempotent lookup-or-create
in the word namespace via `wordMap`; the body is not in the sources. -/
def Mcr.find_or_insert_word (m : Mcr) (s : String) : Mcr × Nat :=
  match mapLookup m.wordMap s with
  | some v => (m, v)
  | none =>
    let p := m.insertNode s 1
    ({ p.1 with wordMap := mapInsert m.wordMap s p.2 }, p.2)

/-- A vertex is a word iff the `is_word` bit of its flags byte is set. -/
def Mcr.vertex_is_word (m : Mcr) (v : Nat) : Bool :=
  match m.verts.get? v with
  | some vd => vd.flags % 2 = 1
  | none => false

/-- A vertex is a synset iff it is not a word. -/
def Mcr.vertex_is_synset (m : Mcr) (v : Nat) : Bool :=
  match m.verts.get? v with
  | some vd => vd.flags % 2 = 0
  | none => false

/-- `get_vertex_name`, from the inline body `get(vertex_name, g, u)`. -/
def Mcr.get_vertex_name (m : Mcr) (v : Nat) : String :=
  match m.verts.get? v with
  | some vd => vd.vname
  | none => ""

/-- `get_vertex_gloss`, from the inline body `get(vertex_gloss, g, u)`. -/
def Mcr.get_vertex_gloss (m : Mcr) (v : Nat) : String :=
  match m.verts.get? v with
  | some vd => vd.gloss
  | none => ""

/-- Modelled from the spec: `get_vertex_by_name`, name lookup over both
namespaces returning `(vertex, found)`; the body is not in the sources. -/
def Mcr.get_vertex_by_name (m : Mcr) (s : String) : Nat × Bool :=
  match mapLookup m.synsetMap s with
  | some v => (v, true)
  | none =>
    match mapLookup m.wordMap s with
    | some v => (v, true)
    | none => (0, false)

/-- Index of the edge with the given ordered endpoint pair, if present. -/
def findEdge (edges : List Edge) (u v : Nat) : Option Nat :=
  match edges with
  | [] => none
  | e :: rest =>
    if e.esrc = u ∧ e.etgt = v then some 0
    else
      match findEdge rest u v with
      | some i => some (i + 1)
      | none => none

/-- Modelled from the spec: `find_or_insert_edge(u, v, w)` returns the
existing edge of the ordered pair `(u, v)` leaving its stored weight
unchanged (first writer wins), otherwise appends a fresh edge with weight `w`
and empty relation mask; edge insertion invalidates the normalization
cache. -/
def Mcr.find_or_insert_edge (m : Mcr) (u v : Nat) (w : ℚ) : Mcr × Nat :=
  match findEdge m.edges u v with
  | some i => (m, i)
  | none =>
    ({ m with edges := m.edges ++ [⟨u, v, w, 0⟩], coef_status := 0 },
     m.edges.length)

/-- Index of a relation label in the registry, if present. -/
def rtypeIndex (rts : List String) (rel : String) : Option Nat :=
  match rts with
  | [] => none
  | r :: rest =>
    if r = rel then some 0
    else
      match rtypeIndex rest rel with
      | some i => some (i + 1)
      | none => none

/-- Width of the `edge_rtype` mask: `boost::uint32_t` has 32 bits, bounding
the number of registrable relation types. -/
def maskWidth : Nat := 32

/-- Modelled from the spec: registration of a relation label in the `rtypes`
registry.  An existing label keeps its index; a fresh one is appended and
receives the next free bit, unless all `maskWidth` bits are assigned, in
which case registration fails with `RegistryFull` and the registry is left
untouched. -/
def registerRtype (rts : List String) (rel : String) :
    (List String × Nat) × Option UkbError :=
  match rtypeIndex rts rel with
  | some i => ((rts, i), none)
  | none =>
    if rts.length < maskWidth then ((rts ++ [rel], rts.length), none)
    else ((rts, 0), some UkbError.RegistryFull)

/-- In-place update of the i-th list element. -/
def listModify (l : List α) (i : Nat) (f : α → α) : List α :=
  match l, i with
  | [], _ => []
  | x :: rest, 0 => f x :: rest
  | x :: rest, i + 1 => x :: listModify rest i f

/-- Modelled from the spec: `edge_add_reltype(e, rel)` registers `rel`
(assigning the next free bit if unseen) and sets that bit in the edge's
mask; on `RegistryFull` the graph is left completely unchanged (no partial
bit assignment leaks).  The pair carries the resulting state together with
the error, mirroring the C++ mutation-with-exception behaviour. -/
def Mcr.edge_add_reltype (m : Mcr) (e : Nat) (rel : String) :
    Mcr × Option UkbError :=
  match registerRtype m.rtypes rel with
  | ((_, _), some err) => (m, some err)
  | ((rts, i), none) =>
    ({ m with rtypes := rts,
              edges := listModify m.edges e
                (fun ed => { ed with ertype := ed.ertype ||| 2 ^ i }) },
     none)

/-- Decode a relation mask into the registered labels whose bit is set, in
registry (ascending bit index) order; label `k` corresponds to bit `k`. -/
def decodeMask : List String → Nat → List String
  | [], _ => []
  | r :: rest, mask =>
    if mask % 2 = 1 then r :: decodeMask rest (mask / 2)
    else decodeMask rest (mask / 2)

/-- `get_edge_reltypes`: decode the edge's mask against the registry. -/
def Mcr.get_edge_reltypes (m : Mcr) (e : Nat) : List String :=
  match m.edges.get? e with
  | some ed => decodeMask m.rtypes ed.ertype
  | none => []

/-- `add_relSource`, from the inline body `relsSource.insert(str)`;
set insertion is modelled as append-if-absent. -/
def Mcr.add_relSource (m : Mcr) (s : String) : Mcr :=
  if s ∈ m.relsSource then m else { m with relsSource := m.relsSource ++ [s] }

/-- Modelled from the spec: `add_comment` appends to the annotation log. -/
def Mcr.add_comment (m : Mcr) (s : String) : Mcr :=
  { m with notes := m.notes ++ [s] }

/-- Modelled from the spec: `get_comments` returns the annotation log in
append order. -/
def Mcr.get_comments (m : Mcr) : List String := m.notes

/-- Modelled from the spec: ingestion of one relation tuple
`(src, tgt, weight, label)` (§4.3): find-or-insert both endpoints as concept
vertices, find-or-insert the edge, register and set the relation label's
bit.  A record hitting `RegistryFull` is fully rejected (§7: no half-applied
record). -/
def Mcr.insertRelation (m : Mcr) (src tgt : String) (w : ℚ) (label : String) :
    Mcr × Option UkbError :=
  let p1 := m.find_or_insert_synset src
  let p2 := p1.1.find_or_insert_synset tgt
  let p3 := p2.1.find_or_insert_edge p1.2 p2.2 w
  let r := p3.1.edge_add_reltype p3.2 label
  match r.2 with
  | none => (r.1, none)
  | some err => (m, some err)

/-! ## Binary snapshot (Loader / Serializer)

The snapshot stream is modelled as a list of atomic tokens (strings, naturals,
rationals), written in the fixed order required by the spec: format marker,
relation-type registry, relation-source set, annotation log, vertex table,
edge table. -/

/-- Atomic items of the binary snapshot stream. -/
inductive Tok where
  | tstr (s : String)
  | tnat (n : Nat)
  | tq (q : ℚ)
deriving DecidableEq

/-- Modelled from the spec: the snapshot's format marker / version word. -/
def snapshotMagic : Nat := 20070416

/-- Serialize a length-prefixed sequence of strings. -/
def writeStrSeq (l : List String) : List Tok :=
  Tok.tnat l.length :: l.map Tok.tstr

/-- Serialize one vertex-table row: name, kind flags, gloss. -/
def writeVertex (v : Vertex) : List Tok :=
  [Tok.tstr v.vname, Tok.tnat v.flags, Tok.tstr v.gloss]

/-- Serialize one edge-table row: source id, target id, weight, mask. -/
def writeEdge (e : Edge) : List Tok :=
  [Tok.tnat e.esrc, Tok.tnat e.etgt, Tok.tq e.eweight, Tok.tnat e.ertype]

/-- Serialize a length-prefixed table of rows. -/
def writeSeq (f : α → List Tok) (l : List α) : List Tok :=
  Tok.tnat l.length :: (l.map f).flatten

/-- Parse exactly `n` strings. -/
def readStrs : Nat → List Tok → Option (List String × List Tok)
  | 0, ts => some ([], ts)
  | n + 1, Tok.tstr s :: ts =>
    match readStrs n ts with
    | some (l, rest) => some (s :: l, rest)
    | none => none
  | _ + 1, _ => none

/-- Parse a length-prefixed sequence of strings. -/
def readStrSeq (ts : List Tok) : Option (List String × List Tok) :=
  match ts with
  | Tok.tnat n :: rest => readStrs n rest
  | _ => none

/-- Parse one vertex-table row. -/
def readVertex (ts : List Tok) : Option (Vertex × List Tok) :=
  match ts with
  | Tok.tstr n :: Tok.tnat f :: Tok.tstr g :: rest => some (⟨n, g, f⟩, rest)
  | _ => none

/-- Parse one edge-table row. -/
def readEdge (ts : List Tok) : Option (Edge × List Tok) :=
  match ts with
  | Tok.tnat u :: Tok.tnat v :: Tok.tq w :: Tok.tnat r :: rest =>
    some (⟨u, v, w, r⟩, rest)
  | _ => none

/-- Parse exactly `n` rows with the given row parser. -/
def readCount (f : List Tok → Option (α × List Tok)) :
    Nat → List Tok → Option (List α × List Tok)
  | 0, ts => some ([], ts)
  | n + 1, ts =>
    match f ts with
    | some (a, ts2) =>
      match readCount f n ts2 with
      | some (l, rest) => some (a :: l, rest)
      | none => none
    | none => none

/-- Rebuild the synset and word name maps from the loaded vertex table: the
i-th vertex registers its name in the map of its namespace (chosen by the
kind flag), exactly as construction would have. -/
def rebuildMapsAux (verts : List Vertex) (i : Nat)
    (sm wm : List (String × Nat)) : List (String × Nat) × List (String × Nat) :=
  match verts with
  | [] => (sm, wm)
  | v :: rest =>
    if v.flags % 2 = 1 then
      rebuildMapsAux rest (i + 1) sm (mapInsert wm v.vname i)
    else
      rebuildMapsAux rest (i + 1) (mapInsert sm v.vname i) wm

/-- Modelled from the spec: `write_to_stream`, serializing in fixed order the
format marker, registry, relation-source set, annotation log, vertex table
and edge table; the body is not in the sources. -/
def Mcr.write_to_stream (m : Mcr) : List Tok :=
  Tok.tnat snapshotMagic ::
    (writeStrSeq m.rtypes ++ writeStrSeq m.relsSource ++ writeStrSeq m.notes ++
      writeSeq writeVertex m.verts ++ writeSeq writeEdge m.edges)

/-- Modelled from the spec: `write_to_binfile` is a `const` member (per the
header declaration): it produces the serialized stream and leaves the graph
state untouched, which the state component of the result records. -/
def Mcr.write_to_binfile (m : Mcr) : Mcr × List Tok :=
  (m, m.write_to_stream)

/-- Modelled from the spec: `read_from_stream` / `create_from_binfile`.
Parses the sections in writing order, rejecting a wrong format marker with
`SnapshotVersionUnsupported` and any malformed or truncated stream with
`SnapshotCorrupt`; the name maps are rebuilt from the vertex table and the
normalization cache starts invalid. -/
def create_from_binfile (ts : List Tok) : Except UkbError Mcr :=
  match ts with
  | Tok.tnat mg :: rest =>
    if mg = snapshotMagic then
      match readStrSeq rest with
      | none => Except.error UkbError.SnapshotCorrupt
      | some (rts, ts1) =>
        match readStrSeq ts1 with
        | none => Except.error UkbError.SnapshotCorrupt
        | some (srcs, ts2) =>
          match readStrSeq ts2 with
          | none => Except.error UkbError.SnapshotCorrupt
          | some (nts, ts3) =>
            match ts3 with
            | Tok.tnat nv :: ts4 =>
              match readCount readVertex nv ts4 with
              | none => Except.error UkbError.SnapshotCorrupt
              | some (vs, ts5) =>
                match ts5 with
                | Tok.tnat ne :: ts6 =>
                  match readCount readEdge ne ts6 with
                  | none => Except.error UkbError.SnapshotCorrupt
                  | some (es, ts7) =>
                    if ts7 = [] then
                      Except.ok
                        { verts := vs, edges := es, relsSource := srcs,
                          synsetMap := (rebuildMapsAux vs 0 [] []).1,
                          wordMap := (rebuildMapsAux vs 0 [] []).2,
                          rtypes := rts, notes := nts,
                          out_coefs := [], coef_status := 0 }
                    else Except.error UkbError.SnapshotCorrupt
                | _ => Except.error UkbError.SnapshotCorrupt
            | _ => Except.error UkbError.SnapshotCorrupt
    else Except.error UkbError.SnapshotVersionUnsupported
  | _ => Except.error UkbError.SnapshotCorrupt

/-! ## Ranker (personalized PageRank) and the normalization cache -/

/-- Damping factor of the random walk.  The spec leaves the constant to the
implementer; 85/100 is the classic choice and is documented as such. -/
def damping : ℚ := 85 / 100

/-- Convergence threshold on the L1 change between successive rank vectors;
implementer-chosen constant, documented as such. -/
def prThreshold : ℚ := 1 / 10000

/-- Iteration cap of the power iteration; implementer-chosen constant,
documented as such. -/
def prMaxIter : Nat := 100

/-- Entry of a rank vector (C++ `std::vector<float>` indexing; all accesses
are in range in well-formed runs). -/
def getQ (l : List ℚ) (i : Nat) : ℚ := l.getD i 0

/-- Per-edge contribution used for normalization: the edge weight in
weighted mode, 1 (a plain out-degree count) otherwise. -/
def edgeCoefWeight (uw : Bool) (e : Edge) : ℚ :=
  if uw then e.eweight else 1

/-- Out-degree of a vertex (number of outgoing edges). -/
def Mcr.outDeg (m : Mcr) (u : Nat) : Nat :=
  (m.edges.filter (fun e => e.esrc == u)).length

/-- Sum of out-edge contributions of one vertex: its out-degree in
unweighted mode, its out-weight sum in weighted mode. -/
def Mcr.outSum (m : Mcr) (uw : Bool) (u : Nat) : ℚ :=
  ((m.edges.filter (fun e => e.esrc == u)).map (edgeCoefWeight uw)).sum

/-- The freshly computed out-coefficient vector for the requested mode, one
pass over all edges. -/
def Mcr.computeCoefs (m : Mcr) (uw : Bool) : List ℚ :=
  (List.range m.verts.length).map (m.outSum uw)

/-- Modelled from the spec: before iterating, the Ranker ensures the cache
matches the requested mode; on a status-tag mismatch the coefficients are
recomputed and the tag updated (1 unweighted, 2 weighted). -/
def Mcr.updateCoefs (m : Mcr) (uw : Bool) : Mcr :=
  if m.coef_status = (if uw then 2 else 1) then m
  else
    { m with out_coefs := m.computeCoefs uw,
             coef_status := if uw then 2 else 1 }

/-- Rank mass flowing into `v` along in-edges: each in-edge carries the
source's current rank scaled by the edge's share of the source's
out-coefficient. -/
def Mcr.inFlow (m : Mcr) (uw : Bool) (coefs old : List ℚ) (v : Nat) : ℚ :=
  ((m.edges.filter (fun e => e.etgt == v)).map
    (fun e => getQ old e.esrc * (edgeCoefWeight uw e / getQ coefs e.esrc))).sum

/-- Total rank mass currently sitting on dangling vertices (no out-edges);
the spec redistributes it through the restart distribution. -/
def Mcr.danglingMass (m : Mcr) (old : List ℚ) : ℚ :=
  (((List.range m.verts.length).filter (fun u => m.outDeg u == 0)).map
    (getQ old)).sum

/-- One power-iteration step of
`rank = (1 - d) * restart + d * (M * rank)`, with dangling mass fed back
through the restart distribution. -/
def Mcr.prStep (m : Mcr) (uw : Bool) (coefs ppv old : List ℚ) : List ℚ :=
  (List.range m.verts.length).map (fun v =>
    (1 - damping) * getQ ppv v +
      damping * (m.inFlow uw coefs old v + m.danglingMass old * getQ ppv v))

/-- L1 distance between two rank vectors of equal length. -/
def l1dist (x y : List ℚ) : ℚ :=
  (List.zipWith (fun a b => |a - b|) x y).sum

/-- The power iteration: stop when the L1 change of one step falls below the
threshold, or when the fuel (iteration cap) runs out, whichever first. -/
def Mcr.prIter (m : Mcr) (uw : Bool) (coefs ppv : List ℚ) :
    Nat → List ℚ → List ℚ
  | 0, cur => cur
  | fuel + 1, cur =>
    let next := m.prStep uw coefs ppv cur
    if l1dist next cur < prThreshold then next
    else m.prIter uw coefs ppv fuel next

/-- Modelled from the spec: `pageRank_ppv(ppv, ranks, use_weight)`.  The
cache is refreshed for the requested mode, then the power iteration runs
from the restart vector itself until convergence or the iteration cap.  The
pair carries the state (with the refreshed cache) and the rank vector. -/
def Mcr.pageRank_ppv (m : Mcr) (ppv : List ℚ) (uw : Bool) : Mcr × List ℚ :=
  let m2 := m.updateCoefs uw
  (m2, m2.prIter uw m2.out_coefs ppv prMaxIter ppv)

/-- Modelled from the spec: `ppv_weights(ppv)` rederives every edge weight
from the personalization vector (the weight becomes the personalization mass
of the edge's target — implementer-chosen derivation, documented as such)
and invalidates the weighted normalization cache, leaving a still-valid
unweighted cache alone. -/
def Mcr.ppv_weights (m : Mcr) (ppv : List ℚ) : Mcr :=
  { m with
    edges := m.edges.map (fun e => { e with eweight := getQ ppv e.etgt }),
    coef_status := if m.coef_status = 2 then 0 else m.coef_status }

/-! ## Traversal: breadth-first search and Dijkstra -/

/-- Targets of the outgoing edges of `u`, in edge-table order. -/
def Mcr.outTargets (m : Mcr) (u : Nat) : List Nat :=
  (m.edges.filter (fun e => e.esrc == u)).map Edge.etgt

/-- Entry of a boolean per-vertex table. -/
def getB (l : List Bool) (i : Nat) : Bool := l.getD i false

/-- Mark one vertex in a boolean per-vertex table. -/
def setB (l : List Bool) (i : Nat) : List Bool :=
  listModify l i (fun _ => true)

/-- Enqueue the not-yet-discovered vertices of a neighbour list, marking each
as discovered and recording it in the visitation order. -/
def bfsVisit (disc : List Bool) (acc queue : List Nat) :
    List Nat → List Bool × List Nat × List Nat
  | [] => (disc, acc, queue)
  | v :: vs =>
    if getB disc v then bfsVisit disc acc queue vs
    else bfsVisit (setB disc v) (acc ++ [v]) (queue ++ [v]) vs

/-- The BFS worklist loop: pop the queue head, enqueue its undiscovered
out-neighbours; the fuel (vertex count) bounds the number of pops. -/
def bfsLoop (m : Mcr) : Nat → List Nat → List Bool → List Nat → List Nat
  | 0, _, _, acc => acc
  | _ + 1, [], _, acc => acc
  | fuel + 1, u :: rest, disc, acc =>
    let t := bfsVisit disc acc rest (m.outTargets u)
    bfsLoop m fuel t.2.2 t.1 t.2.1

/-- Modelled from the spec: `bfs(source, synv)` follows outgoing edges only
and lists vertices in discovery order; a source with no outgoing edges gives
the one-element traversal of itself, and the boolean reports whether the
source exists. -/
def Mcr.bfs (m : Mcr) (src : Nat) : Bool × List Nat :=
  if src < m.size then
    (true, bfsLoop m m.size [src] (setB (List.replicate m.size false) src) [src])
  else (false, [])

/-- Dijkstra working state: tentative distances, parent pointers, visited
marks (all per-vertex tables). -/
structure DState where
  dist : List (Option ℚ)
  par : List (Option Nat)
  visited : List Bool

/-- Entry of a per-vertex optional-distance table. -/
def getO (l : List (Option ℚ)) (i : Nat) : Option ℚ := l.getD i none

/-- Entry of a per-vertex parent table. -/
def getP (l : List (Option Nat)) (i : Nat) : Option Nat := l.getD i none

/-- The unvisited vertices that already carry a tentative distance. -/
def dijkCandidates (n : Nat) (st : DState) : List Nat :=
  (List.range n).filter (fun v => !(getB st.visited v) && (getO st.dist v).isSome)

/-- Tentative distance as a rational (only evaluated on candidates, whose
distance is present). -/
def distVal (st : DState) (v : Nat) : ℚ := (getO st.dist v).getD 0

/-- Select the unvisited vertex of minimal tentative distance. -/
def pickMin (n : Nat) (st : DState) : Option Nat :=
  (dijkCandidates n st).argmin (distVal st)

/-- Relax one edge out of the vertex `u` being settled: improve the target's
tentative distance and parent pointer when the path through `u` is strictly
better or the target is undiscovered. -/
def relaxEdge (u : Nat) (st : DState) (e : Edge) : DState :=
  if e.esrc = u then
    match getO st.dist u with
    | none => st
    | some qu =>
      let c := qu + e.eweight
      match getO st.dist e.etgt with
      | none =>
        { dist := listModify st.dist e.etgt (fun _ => some c),
          par := listModify st.par e.etgt (fun _ => some u),
          visited := st.visited }
      | some qt =>
        if c < qt then
          { dist := listModify st.dist e.etgt (fun _ => some c),
            par := listModify st.par e.etgt (fun _ => some u),
            visited := st.visited }
        else st
  else st

/-- Relax every edge leaving `u`. -/
def relaxOut (m : Mcr) (u : Nat) (st : DState) : DState :=
  m.edges.foldl (relaxEdge u) st

/-- Mark a vertex as settled. -/
def markVisited (u : Nat) (st : DState) : DState :=
  { st with visited := setB st.visited u }

/-- The Dijkstra main loop: settle the unvisited vertex of minimal tentative
distance and relax its out-edges; the fuel (vertex count) bounds the number
of settlings. -/
def dijkLoop (m : Mcr) : Nat → DState → DState
  | 0, st => st
  | fuel + 1, st =>
    match pickMin m.size st with
    | none => st
    | some u => dijkLoop m fuel (relaxOut m u (markVisited u st))

/-- Initial Dijkstra state: the source has distance 0 and itself as parent,
everything else is undiscovered. -/
def dijkInit (n src : Nat) : DState :=
  { dist := listModify (List.replicate n none) src (fun _ => some 0),
    par := listModify (List.replicate n none) src (fun _ => some src),
    visited := List.replicate n false }

/-- Modelled from the spec: `dijkstra(src, parents)`, single-source shortest
paths by non-negative edge weight; `parents[v]` is the predecessor of `v` on
the shortest discovered path, `parents[source] = source`, unreached vertices
keep the `none` sentinel, and the boolean reports whether the source
exists. -/
def Mcr.dijkstra (m : Mcr) (src : Nat) : Bool × List (Option Nat) :=
  if src < m.size then
    (true, (dijkLoop m m.size (dijkInit m.size src)).par)
  else (false, List.replicate m.size none)

/-- Paths of the graph: `IsPath m src t c` holds when some directed path
from `src` to `t` of total weight `c` exists. -/
inductive IsPath (m : Mcr) (src : Nat) : Nat → ℚ → Prop where
  | refl : IsPath m src src 0
  | step {u : Nat} {c : ℚ} (e : Edge) :
      IsPath m src u c → e ∈ m.edges → e.esrc = u → IsPath m src e.etgt (c + e.eweight)

/-! ## Dijkstra: invariants -/

/-- Invariant of the Dijkstra working state (tables of the right size,
source pinned at distance 0 with itself as parent, all recorded distances
nonnegative and witnessed by actual paths, settled distances below
unsettled ones, settled vertices carrying distances, and every non-source
discovered vertex holding a parent edge that explains its distance through
a settled neighbour). -/
structure DInv (m : Mcr) (src : Nat) (st : DState) : Prop where
  len_d : st.dist.length = m.verts.length
  len_p : st.par.length = m.verts.length
  len_v : st.visited.length = m.verts.length
  src_dist : getO st.dist src = some 0
  src_par : getP st.par src = some src
  nonneg : ∀ v q, getO st.dist v = some q → 0 ≤ q
  sound : ∀ v q, getO st.dist v = some q → IsPath m src v q
  vu : ∀ t x qt qx, getB st.visited t = true → getB st.visited x = false →
      getO st.dist t = some qt → getO st.dist x = some qx → qt ≤ qx
  vd : ∀ v, getB st.visited v = true → ∃ q, getO st.dist v = some q
  pp : ∀ v, v ≠ src → ∀ q, getO st.dist v = some q →
      ∃ u e qu, getP st.par v = some u ∧ getB st.visited u = true ∧
        e ∈ m.edges ∧ e.esrc = u ∧ e.etgt = v ∧
        getO st.dist u = some qu ∧ q = qu + e.eweight
  pd : ∀ v u, v ≠ src → getP st.par v = some u →
      ∃ q, getO st.dist v = some q

/-- All out-edges of the settled region are relaxed. -/
def Relaxed (m : Mcr) (st : DState) : Prop :=
  ∀ u, getB st.visited u = true → ∀ e ∈ m.edges, e.esrc = u →
    ∃ qu qv, getO st.dist u = some qu ∧ getO st.dist e.etgt = some qv ∧
      qv ≤ qu + e.eweight

/-- The vertex currently being settled has the largest settled distance. -/
def UMax (u : Nat) (st : DState) : Prop :=
  ∀ t qt qu, getB st.visited t = true → getO st.dist t = some qt →
    getO st.dist u = some qu → qt ≤ qu

/-! ## Reachable states and invariants -/

/-- Graphs produced by some sequence of API operations on the initial empty
instance, each applied to descriptors that are valid at that point. -/
inductive Built : Mcr → Prop where
  | empty : Built emptyMcr
  | synset (m : Mcr) (s : String) : Built m → Built (m.find_or_insert_synset s).1
  | word (m : Mcr) (s : String) : Built m → Built (m.find_or_insert_word s).1
  | edge (m : Mcr) (u v : Nat) (w : ℚ) : Built m → u < m.size → v < m.size →
      Built (m.find_or_insert_edge u v w).1
  | reltype (m : Mcr) (e : Nat) (rel : String) : Built m →
      Built (m.edge_add_reltype e rel).1
  | relSourceAdd (m : Mcr) (s : String) : Built m → Built (m.add_relSource s)
  | comment (m : Mcr) (s : String) : Built m → Built (m.add_comment s)
  | ppvw (m : Mcr) (ppv : List ℚ) : Built m → Built (m.ppv_weights ppv)
  | rank (m : Mcr) (ppv : List ℚ) (uw : Bool) : Built m →
      Built (m.pageRank_ppv ppv uw).1

/-- The status tag describes the out-coefficient cache truthfully: tag 1
means the cache holds the unweighted coefficients of the current graph, tag
2 the weighted ones (tag 0 promises nothing). -/
def CoefOK (m : Mcr) : Prop :=
  (m.coef_status = 1 → m.out_coefs = m.computeCoefs false) ∧
  (m.coef_status = 2 → m.out_coefs = m.computeCoefs true)

/-- Structural invariants of every reachable graph. -/
structure McrInv (m : Mcr) : Prop where
  edges_src : ∀ e ∈ m.edges, e.esrc < m.verts.length
  edges_tgt : ∀ e ∈ m.edges, e.etgt < m.verts.length
  maps_syn : m.synsetMap = (rebuildMapsAux m.verts 0 [] []).1
  maps_word : m.wordMap = (rebuildMapsAux m.verts 0 [] []).2
  rtypes_le : m.rtypes.length ≤ maskWidth
  masks_lt : ∀ e ∈ m.edges, e.ertype < 2 ^ m.rtypes.length
  coefs : CoefOK m

/-- Observational identity of two graph states, as the round-trip contract
lists it: vertex table (names, kind flags, glosses), edge table (weights and
masks, hence decoded relation-label lists), registry order, relation-source
set, annotation log. -/
def ObsEq (m1 m2 : Mcr) : Prop :=
  m1.verts = m2.verts ∧ m1.edges = m2.edges ∧ m1.rtypes = m2.rtypes ∧
    m1.relsSource = m2.relsSource ∧ m1.notes = m2.notes

/-! ## Concrete example graphs used as witnesses -/

/-- A one-edge graph used to witness the edge-merge property. -/
def claim2Graph : Mcr :=
  { emptyMcr with edges := [⟨0, 0, 1, 0⟩] }

/-- A graph whose relation registry is full (32 labels). -/
def claim3Graph : Mcr :=
  { emptyMcr with
    rtypes := (List.range 32).map (fun i => "r" ++ toString i) }

/-- A small constructed graph (two concepts, a word, one typed edge, a
relation source and a comment) used to witness the snapshot round trip. -/
def claim1Graph : Mcr :=
  ((((((emptyMcr.find_or_insert_synset "cat").1.find_or_insert_synset
      "feline").1.find_or_insert_edge 0 1 (3 / 2)).1.edge_add_reltype 0
      "hypernym").1.find_or_insert_word "cat").1.add_relSource
      "wn30").add_comment "built by test"

/-- The A→B→C chain used to witness the BFS discovery order. -/
def bfsGraph : Mcr :=
  let p1 := emptyMcr.find_or_insert_synset "A"
  let p2 := p1.1.find_or_insert_synset "B"
  let p3 := p2.1.find_or_insert_synset "C"
  ((p3.1.find_or_insert_edge 0 1 1).1.find_or_insert_edge 1 2 1).1

/-- The triangle A→B (2), A→C (5), B→C (1) used to witness Dijkstra. -/
def dijkGraph : Mcr :=
  let p1 := emptyMcr.find_or_insert_synset "A"
  let p2 := p1.1.find_or_insert_synset "B"
  let p3 := p2.1.find_or_insert_synset "C"
  (((p3.1.find_or_insert_edge 0 1 2).1.find_or_insert_edge 0 2
      5).1.find_or_insert_edge 1 2 1).1

/-- The single-isolated-vertex graph used for the trivial PageRank case. -/
def isolatedGraph : Mcr :=
  (emptyMcr.find_or_insert_synset "alone").1

/-! ## Basic lemmas about the name maps -/

theorem mapLookup_append_self (mp : List (String × Nat)) (s : String) (v : Nat)
    (h : mapLookup mp s = none) : mapLookup (mp ++ [(s, v)]) s = some v := by
  induction mp with
  | nil => simp [mapLookup]
  | cons kv rest ih =>
    obtain ⟨k, w⟩ := kv
    simp only [List.cons_append, mapLookup] at h ⊢
    by_cases hk : k = s
    · simp [hk] at h
    · simp only [hk, if_false] at h ⊢
      exact ih h

theorem mapLookup_insert_self (mp : List (String × Nat)) (s : String) (v : Nat)
    (h : mapLookup mp s = none) : mapLookup (mapInsert mp s v) s = some v := by
  unfold mapInsert
  rw [h]
  exact mapLookup_append_self mp s v h

/-- Claim C9: idempotent vertex insertion — a second `find_or_insert_synset`
(resp. `find_or_insert_word`) with the same name returns the vertex id of the
first call, leaves `size()` unchanged, and in fact leaves the whole state
unchanged. -/
theorem claim9_idempotent_insertion (m : Mcr) (s : String) :
    (((m.find_or_insert_synset s).1.find_or_insert_synset s).2 =
        (m.find_or_insert_synset s).2 ∧
      ((m.find_or_insert_synset s).1.find_or_insert_synset s).1.size =
        (m.find_or_insert_synset s).1.size ∧
      ((m.find_or_insert_synset s).1.find_or_insert_synset s).1 =
        (m.find_or_insert_synset s).1) ∧
    (((m.find_or_insert_word s).1.find_or_insert_word s).2 =
        (m.find_or_insert_word s).2 ∧
      ((m.find_or_insert_word s).1.find_or_insert_word s).1.size =
        (m.find_or_insert_word s).1.size ∧
      ((m.find_or_insert_word s).1.find_or_insert_word s).1 =
        (m.find_or_insert_word s).1) := by
  constructor
  · cases h : mapLookup m.synsetMap s with
    | some v =>
      simp [Mcr.find_or_insert_synset, h]
    | none =>
      have h2 : mapLookup (mapInsert m.synsetMap s m.verts.length) s =
          some m.verts.length := mapLookup_insert_self _ _ _ h
      simp [Mcr.find_or_insert_synset, h, Mcr.insertNode, h2]
  · cases h : mapLookup m.wordMap s with
    | some v =>
      simp [Mcr.find_or_insert_word, h]
    | none =>
      have h2 : mapLookup (mapInsert m.wordMap s m.verts.length) s =
          some m.verts.length := mapLookup_insert_self _ _ _ h
      simp [Mcr.find_or_insert_word, h, Mcr.insertNode, h2]

/-- Claim C2: edge merge with first-writer-wins weight — when the ordered
pair is already present, `find_or_insert_edge` returns the existing edge and
leaves the state (hence the stored weight) unchanged; ingesting
`(A,B,w1,hypernym)` then `(A,B,w2,holonym)` yields exactly the one edge
`A→B` with weight `w1` and decoded label list `[hypernym, holonym]`. -/
theorem claim2_edge_merge (m : Mcr) (u v : Nat) (w : ℚ) (i : Nat)
    (h : findEdge m.edges u v = some i) :
    m.find_or_insert_edge u v w = (m, i) ∧
    ∀ w1 w2 : ℚ,
      ((emptyMcr.insertRelation "A" "B" w1 "hypernym").1.insertRelation
          "A" "B" w2 "holonym").1.edges = [⟨0, 1, w1, 3⟩] ∧
      ((emptyMcr.insertRelation "A" "B" w1 "hypernym").1.insertRelation
          "A" "B" w2 "holonym").1.get_edge_reltypes 0 =
        ["hypernym", "holonym"] := by
  refine ⟨?_, ?_⟩
  · simp [Mcr.find_or_insert_edge, h]
  · intro w1 w2
    constructor <;>
      simp [Mcr.insertRelation, Mcr.find_or_insert_synset, Mcr.insertNode,
        mapLookup, mapInsert, Mcr.find_or_insert_edge, findEdge,
        Mcr.edge_add_reltype, registerRtype, rtypeIndex, listModify, emptyMcr,
        maskWidth, Mcr.get_edge_reltypes, decodeMask]

theorem claim2_edge_merge_witness :
    findEdge claim2Graph.edges 0 0 = some 0 ∧
      (claim2Graph.find_or_insert_edge 0 0 1 = (claim2Graph, 0) ∧
        ∀ w1 w2 : ℚ,
          ((emptyMcr.insertRelation "A" "B" w1 "hypernym").1.insertRelation
              "A" "B" w2 "holonym").1.edges = [⟨0, 1, w1, 3⟩] ∧
          ((emptyMcr.insertRelation "A" "B" w1 "hypernym").1.insertRelation
              "A" "B" w2 "holonym").1.get_edge_reltypes 0 =
            ["hypernym", "holonym"]) :=
  ⟨by decide, claim2_edge_merge claim2Graph 0 0 1 0 (by decide)⟩

/-- Claim C3: registry capacity failure is clean — with all 32 mask bits
assigned, adding an unseen relation label fails with `RegistryFull` and the
state is completely unchanged: the rejected label gets no bit, the registry
keeps exactly the previous labels in order, and every edge keeps its mask
and decoded label list. -/
theorem claim3_registry_full (m : Mcr) (e : Nat) (rel : String)
    (hfull : m.rtypes.length = maskWidth)
    (hnew : rtypeIndex m.rtypes rel = none) :
    m.edge_add_reltype e rel = (m, some UkbError.RegistryFull) ∧
      (m.edge_add_reltype e rel).1.rtypes = m.rtypes ∧
      (m.edge_add_reltype e rel).1.edges = m.edges ∧
      rtypeIndex (m.edge_add_reltype e rel).1.rtypes rel = none ∧
      ∀ e2 : Nat, (m.edge_add_reltype e rel).1.get_edge_reltypes e2 =
        m.get_edge_reltypes e2 := by
  have hstep : m.edge_add_reltype e rel = (m, some UkbError.RegistryFull) := by
    unfold Mcr.edge_add_reltype registerRtype
    rw [hnew, hfull]
    simp
  refine ⟨hstep, ?_, ?_, ?_, ?_⟩ <;> rw [hstep]
  · exact hnew
  · exact fun _ => rfl

theorem claim3_registry_full_witness :
    claim3Graph.rtypes.length = maskWidth ∧
      rtypeIndex claim3Graph.rtypes "overflow" = none ∧
      (claim3Graph.edge_add_reltype 0 "overflow" =
          (claim3Graph, some UkbError.RegistryFull) ∧
        (claim3Graph.edge_add_reltype 0 "overflow").1.rtypes =
          claim3Graph.rtypes ∧
        (claim3Graph.edge_add_reltype 0 "overflow").1.edges =
          claim3Graph.edges ∧
        rtypeIndex (claim3Graph.edge_add_reltype 0 "overflow").1.rtypes
          "overflow" = none ∧
        ∀ e2 : Nat,
          (claim3Graph.edge_add_reltype 0 "overflow").1.get_edge_reltypes e2 =
            claim3Graph.get_edge_reltypes e2) :=
  ⟨by decide, by decide,
    claim3_registry_full claim3Graph 0 "overflow" (by decide) (by decide)⟩

/-- Claim C10: saving is observationally pure — `write_to_binfile` is a
`const` operation: the state component it returns is the receiver itself,
so every externally observable part of the graph (vertices, edges with
weights and masks, registry, relation-source set, annotation log,
normalization cache) and every query result is unchanged by a save. -/
theorem claim10_write_pure (m : Mcr) :
    (m.write_to_binfile).1 = m ∧
      (m.write_to_binfile).1.verts = m.verts ∧
      (m.write_to_binfile).1.edges = m.edges ∧
      (m.write_to_binfile).1.rtypes = m.rtypes ∧
      (m.write_to_binfile).1.relsSource = m.relsSource ∧
      (m.write_to_binfile).1.notes = m.notes ∧
      (m.write_to_binfile).1.out_coefs = m.out_coefs ∧
      (m.write_to_binfile).1.coef_status = m.coef_status ∧
      (∀ v, (m.write_to_binfile).1.get_vertex_name v = m.get_vertex_name v) ∧
      (∀ v, (m.write_to_binfile).1.get_vertex_gloss v = m.get_vertex_gloss v) ∧
      (∀ e, (m.write_to_binfile).1.get_edge_reltypes e = m.get_edge_reltypes e) ∧
      (∀ s, (m.write_to_binfile).1.get_vertex_by_name s = m.get_vertex_by_name s) ∧
      (m.write_to_binfile).1.get_comments = m.get_comments ∧
      (m.write_to_binfile).1.size = m.size :=
  ⟨rfl, rfl, rfl, rfl, rfl, rfl, rfl, rfl, fun _ => rfl, fun _ => rfl,
    fun _ => rfl, fun _ => rfl, rfl, rfl⟩

/-! ## Snapshot round-trip lemmas -/

theorem readStrs_write (l : List String) (rest : List Tok) :
    readStrs l.length (l.map Tok.tstr ++ rest) = some (l, rest) := by
  induction l with
  | nil => rfl
  | cons s l ih => simp [readStrs, ih]

theorem readStrSeq_write (l : List String) (rest : List Tok) :
    readStrSeq (writeStrSeq l ++ rest) = some (l, rest) := by
  simp [writeStrSeq, readStrSeq, readStrs_write]

theorem readVertex_write (v : Vertex) (rest : List Tok) :
    readVertex (writeVertex v ++ rest) = some (v, rest) := rfl

theorem readEdge_write (e : Edge) (rest : List Tok) :
    readEdge (writeEdge e ++ rest) = some (e, rest) := rfl

theorem readCount_write {α : Type} (f : List Tok → Option (α × List Tok))
    (w : α → List Tok) (hf : ∀ a rest, f (w a ++ rest) = some (a, rest))
    (l : List α) (rest : List Tok) :
    readCount f l.length ((l.map w).flatten ++ rest) = some (l, rest) := by
  induction l with
  | nil => rfl
  | cons a l ih =>
    simp [readCount, List.append_assoc, hf, ih]

theorem create_from_binfile_write (m : Mcr) :
    create_from_binfile m.write_to_stream =
      Except.ok
        { m with synsetMap := (rebuildMapsAux m.verts 0 [] []).1,
                 wordMap := (rebuildMapsAux m.verts 0 [] []).2,
                 out_coefs := [], coef_status := 0 } := by
  have hv : ∀ rest, readCount readVertex m.verts.length
      ((m.verts.map writeVertex).flatten ++ rest) = some (m.verts, rest) :=
    fun rest => readCount_write _ _ readVertex_write m.verts rest
  have he : readCount readEdge m.edges.length
      ((m.edges.map writeEdge).flatten) = some (m.edges, []) := by
    have h := readCount_write _ _ readEdge_write m.edges []
    simpa using h
  simp [Mcr.write_to_stream, create_from_binfile, writeSeq, List.append_assoc,
    readStrSeq_write, hv, he]

/-! ## Invariant machinery -/

theorem rebuildMapsAux_append (l : List Vertex) (v : Vertex) :
    ∀ (i : Nat) (sm wm : List (String × Nat)),
      rebuildMapsAux (l ++ [v]) i sm wm =
        if v.flags % 2 = 1 then
          ((rebuildMapsAux l i sm wm).1,
            mapInsert (rebuildMapsAux l i sm wm).2 v.vname (i + l.length))
        else
          (mapInsert (rebuildMapsAux l i sm wm).1 v.vname (i + l.length),
            (rebuildMapsAux l i sm wm).2) := by
  induction l with
  | nil =>
    intro i sm wm
    simp [rebuildMapsAux]
  | cons u l ih =>
    intro i sm wm
    have harith : i + 1 + l.length = i + (u :: l).length := by
      simp [List.length_cons]
      omega
    by_cases hu : u.flags % 2 = 1
    · simp only [List.cons_append, rebuildMapsAux, hu, if_true, List.append_eq]
      rw [ih, harith]
    · simp only [List.cons_append, rebuildMapsAux, hu, if_false, List.append_eq]
      rw [ih, harith]

theorem rtypeIndex_lt (rts : List String) (rel : String) :
    ∀ i, rtypeIndex rts rel = some i → i < rts.length := by
  induction rts with
  | nil => intro i h; simp [rtypeIndex] at h
  | cons r rest ih =>
    intro i h
    simp only [rtypeIndex] at h
    by_cases hr : r = rel
    · simp only [hr, if_true, Option.some.injEq] at h
      simp only [List.length_cons]
      omega
    · simp only [hr, if_false] at h
      cases hrec : rtypeIndex rest rel with
      | none => rw [hrec] at h; cases h
      | some j =>
        rw [hrec] at h
        cases h
        have := ih j hrec
        simp only [List.length_cons]
        omega

theorem mem_listModify {α : Type} (l : List α) (f : α → α) :
    ∀ (i : Nat), ∀ x ∈ listModify l i f, ∃ y ∈ l, x = y ∨ x = f y := by
  induction l with
  | nil => intro i x hx; simp [listModify] at hx
  | cons a l ih =>
    intro i x hx
    cases i with
    | zero =>
      simp only [listModify, List.mem_cons] at hx
      rcases hx with h | h
      · exact ⟨a, List.mem_cons_self a l, Or.inr h⟩
      · exact ⟨x, List.mem_cons_of_mem a h, Or.inl rfl⟩
    | succ i =>
      simp only [listModify, List.mem_cons] at hx
      rcases hx with h | h
      · exact ⟨a, List.mem_cons_self a l, Or.inl h⟩
      · obtain ⟨y, hy, hxy⟩ := ih i x h
        exact ⟨y, List.mem_cons_of_mem a hy, hxy⟩

theorem edgeCoefWeight_congr {g : Edge → Edge}
    (h2 : ∀ a, (g a).eweight = a.eweight) (uw : Bool) (a : Edge) :
    edgeCoefWeight uw (g a) = edgeCoefWeight uw a := by
  cases uw <;> simp [edgeCoefWeight, h2]

theorem filter_map_weights_listModify (l : List Edge) (g : Edge → Edge)
    (h1 : ∀ a, (g a).esrc = a.esrc) (h2 : ∀ a, (g a).eweight = a.eweight)
    (uw : Bool) (u : Nat) :
    ∀ i, ((listModify l i g).filter (fun e => e.esrc == u)).map
        (edgeCoefWeight uw) =
      (l.filter (fun e => e.esrc == u)).map (edgeCoefWeight uw) := by
  induction l with
  | nil => intro i; rfl
  | cons a l ih =>
    intro i
    cases i with
    | zero =>
      simp only [listModify, List.filter_cons]
      have hsrc : ((g a).esrc == u) = (a.esrc == u) := by rw [h1]
      rw [hsrc]
      by_cases hau : a.esrc == u
      · simp [hau, edgeCoefWeight_congr h2]
      · simp [hau]
    | succ i =>
      simp only [listModify, List.filter_cons]
      by_cases hau : a.esrc == u
      · simp [hau, ih i]
      · simp [hau, ih i]

theorem filter_map_weights_map_false (l : List Edge) (g : Edge → Edge)
    (h1 : ∀ a, (g a).esrc = a.esrc) (u : Nat) :
    (((l.map g).filter (fun e => e.esrc == u)).map (edgeCoefWeight false)).sum =
      ((l.filter (fun e => e.esrc == u)).map (edgeCoefWeight false)).sum := by
  induction l with
  | nil => rfl
  | cons a l ih =>
    simp only [List.map_cons, List.filter_cons]
    have hsrc : ((g a).esrc == u) = (a.esrc == u) := by rw [h1]
    rw [hsrc]
    by_cases hau : a.esrc == u
    · simp only [hau, if_true, List.map_cons, List.sum_cons, ih]
      rfl
    · simp [hau, ih]

theorem coefok_of_status0 {m : Mcr} (h : m.coef_status = 0) : CoefOK m := by
  constructor <;> intro h2 <;> (rw [h] at h2; cases h2)

theorem computeCoefs_reltype (m : Mcr) (e : Nat) (rel : String) (uw : Bool) :
    (m.edge_add_reltype e rel).1.computeCoefs uw = m.computeCoefs uw := by
  unfold Mcr.edge_add_reltype
  cases h : registerRtype m.rtypes rel with
  | mk p err =>
    cases p with
    | mk rts i =>
      cases err with
      | none =>
        simp only [Mcr.computeCoefs, Mcr.outSum]
        refine List.map_congr_left fun u hu => ?_
        exact congrArg List.sum
          (filter_map_weights_listModify m.edges
            (fun ed => { ed with ertype := ed.ertype ||| 2 ^ i })
            (fun a => rfl) (fun a => rfl) uw u e)
      | some err => rfl

theorem computeCoefs_ppvw_false (m : Mcr) (ppv : List ℚ) :
    (m.ppv_weights ppv).computeCoefs false = m.computeCoefs false := by
  simp only [Mcr.ppv_weights, Mcr.computeCoefs, Mcr.outSum]
  refine List.map_congr_left fun u hu => ?_
  exact filter_map_weights_map_false m.edges
    (fun e => { e with eweight := getQ ppv e.etgt }) (fun a => rfl) u

theorem coefok_updateCoefs (m : Mcr) (uw : Bool) (hm : CoefOK m) :
    CoefOK (m.updateCoefs uw) ∧ (m.updateCoefs uw).out_coefs = m.computeCoefs uw := by
  unfold Mcr.updateCoefs
  by_cases heq : m.coef_status = (if uw then 2 else 1)
  · rw [if_pos heq]
    refine ⟨hm, ?_⟩
    cases uw
    · exact hm.1 (by simpa using heq)
    · exact hm.2 (by simpa using heq)
  · rw [if_neg heq]
    refine ⟨⟨?_, ?_⟩, rfl⟩
    · intro h1
      dsimp only at h1
      cases uw
      · rfl
      · simp at h1
    · intro h2
      dsimp only at h2
      cases uw
      · simp at h2
      · rfl

theorem updateCoefs_graph_fields (m : Mcr) (uw : Bool) :
    (m.updateCoefs uw).verts = m.verts ∧ (m.updateCoefs uw).edges = m.edges ∧
      (m.updateCoefs uw).synsetMap = m.synsetMap ∧
      (m.updateCoefs uw).wordMap = m.wordMap ∧
      (m.updateCoefs uw).rtypes = m.rtypes := by
  unfold Mcr.updateCoefs
  by_cases heq : m.coef_status = (if uw then 2 else 1)
  · rw [if_pos heq]
    exact ⟨rfl, rfl, rfl, rfl, rfl⟩
  · rw [if_neg heq]
    exact ⟨rfl, rfl, rfl, rfl, rfl⟩

theorem built_inv (m : Mcr) (hb : Built m) : McrInv m := by
  induction hb with
  | empty =>
    refine ⟨?_, ?_, rfl, rfl, ?_, ?_, coefok_of_status0 rfl⟩
    · intro e he; simp [emptyMcr] at he
    · intro e he; simp [emptyMcr] at he
    · simp [emptyMcr, maskWidth]
    · intro e he; simp [emptyMcr] at he
  | synset m s hb ih =>
    cases hlk : mapLookup m.synsetMap s with
    | some v => simpa [Mcr.find_or_insert_synset, hlk] using ih
    | none =>
      simp only [Mcr.find_or_insert_synset, hlk, Mcr.insertNode]
      refine ⟨?_, ?_, ?_, ?_, ih.rtypes_le, ih.masks_lt, coefok_of_status0 rfl⟩
      · intro e he
        have h1 := ih.edges_src e he
        simp only [List.length_append, List.length_cons, List.length_nil]
        omega
      · intro e he
        have h1 := ih.edges_tgt e he
        simp only [List.length_append, List.length_cons, List.length_nil]
        omega
      · rw [rebuildMapsAux_append]
        simp only [ih.maps_syn]
        norm_num
      · rw [rebuildMapsAux_append]
        simp only [ih.maps_word]
        norm_num
  | word m s hb ih =>
    cases hlk : mapLookup m.wordMap s with
    | some v => simpa [Mcr.find_or_insert_word, hlk] using ih
    | none =>
      simp only [Mcr.find_or_insert_word, hlk, Mcr.insertNode]
      refine ⟨?_, ?_, ?_, ?_, ih.rtypes_le, ih.masks_lt, coefok_of_status0 rfl⟩
      · intro e he
        have h1 := ih.edges_src e he
        simp only [List.length_append, List.length_cons, List.length_nil]
        omega
      · intro e he
        have h1 := ih.edges_tgt e he
        simp only [List.length_append, List.length_cons, List.length_nil]
        omega
      · rw [rebuildMapsAux_append]
        simp only [ih.maps_syn]
        norm_num
      · rw [rebuildMapsAux_append]
        simp only [ih.maps_word]
        norm_num
  | edge m u v w hb hu hv ih =>
    cases hfe : findEdge m.edges u v with
    | some i => simpa [Mcr.find_or_insert_edge, hfe] using ih
    | none =>
      simp only [Mcr.find_or_insert_edge, hfe]
      refine ⟨?_, ?_, ih.maps_syn, ih.maps_word, ih.rtypes_le, ?_,
        coefok_of_status0 rfl⟩
      · intro e he
        rcases List.mem_append.mp he with h | h
        · exact ih.edges_src e h
        · simp only [List.mem_singleton] at h
          subst h
          exact hu
      · intro e he
        rcases List.mem_append.mp he with h | h
        · exact ih.edges_tgt e h
        · simp only [List.mem_singleton] at h
          subst h
          exact hv
      · intro e he
        rcases List.mem_append.mp he with h | h
        · exact ih.masks_lt e h
        · simp only [List.mem_singleton] at h
          subst h
          exact Nat.two_pow_pos _
  | reltype m e rel hb ih =>
    have hcc := computeCoefs_reltype m e rel
    unfold Mcr.edge_add_reltype at hcc ⊢
    unfold registerRtype at hcc ⊢
    cases hidx : rtypeIndex m.rtypes rel with
    | some i =>
      simp only [hidx] at hcc ⊢
      have hi := rtypeIndex_lt m.rtypes rel i hidx
      refine ⟨?_, ?_, ih.maps_syn, ih.maps_word, ih.rtypes_le, ?_, ?_⟩
      · intro x hx
        obtain ⟨y, hy, hxy⟩ := mem_listModify m.edges _ e x hx
        rcases hxy with h | h <;> rw [h]
        · exact ih.edges_src y hy
        · exact ih.edges_src y hy
      · intro x hx
        obtain ⟨y, hy, hxy⟩ := mem_listModify m.edges _ e x hx
        rcases hxy with h | h <;> rw [h]
        · exact ih.edges_tgt y hy
        · exact ih.edges_tgt y hy
      · intro x hx
        obtain ⟨y, hy, hxy⟩ := mem_listModify m.edges _ e x hx
        rcases hxy with h | h <;> rw [h]
        · exact ih.masks_lt y hy
        · exact Nat.or_lt_two_pow (ih.masks_lt y hy)
            (Nat.pow_lt_pow_right Nat.one_lt_two hi)
      · refine ⟨fun h1 => ?_, fun h2 => ?_⟩
        · exact (ih.coefs.1 h1).trans (hcc false).symm
        · exact (ih.coefs.2 h2).trans (hcc true).symm
    | none =>
      by_cases hlen : m.rtypes.length < maskWidth
      · simp only [hidx, hlen, if_true] at hcc ⊢
        refine ⟨?_, ?_, ih.maps_syn, ih.maps_word, ?_, ?_, ?_⟩
        · intro x hx
          obtain ⟨y, hy, hxy⟩ := mem_listModify m.edges _ e x hx
          rcases hxy with h | h <;> rw [h]
          · exact ih.edges_src y hy
          · exact ih.edges_src y hy
        · intro x hx
          obtain ⟨y, hy, hxy⟩ := mem_listModify m.edges _ e x hx
          rcases hxy with h | h <;> rw [h]
          · exact ih.edges_tgt y hy
          · exact ih.edges_tgt y hy
        · simp only [List.length_append, List.length_cons, List.length_nil]
          omega
        · intro x hx
          obtain ⟨y, hy, hxy⟩ := mem_listModify m.edges _ e x hx
          have hmono : 2 ^ m.rtypes.length <
              2 ^ (m.rtypes ++ [rel]).length := by
            refine Nat.pow_lt_pow_right Nat.one_lt_two ?_
            simp
          rcases hxy with h | h <;> rw [h]
          · exact lt_trans (ih.masks_lt y hy) hmono
          · exact Nat.or_lt_two_pow (lt_trans (ih.masks_lt y hy) hmono)
              (Nat.pow_lt_pow_right Nat.one_lt_two (by simp))
        · refine ⟨fun h1 => ?_, fun h2 => ?_⟩
          · exact (ih.coefs.1 h1).trans (hcc false).symm
          · exact (ih.coefs.2 h2).trans (hcc true).symm
      · simp only [hidx, hlen, if_false] at hcc ⊢
        exact ih
  | relSourceAdd m s hb ih =>
    unfold Mcr.add_relSource
    split
    · exact ih
    · refine ⟨ih.edges_src, ih.edges_tgt, ih.maps_syn, ih.maps_word,
        ih.rtypes_le, ih.masks_lt, ih.coefs⟩
  | comment m s hb ih =>
    exact ⟨ih.edges_src, ih.edges_tgt, ih.maps_syn, ih.maps_word,
      ih.rtypes_le, ih.masks_lt, ih.coefs⟩
  | ppvw m ppv hb ih =>
    refine ⟨?_, ?_, ih.maps_syn, ih.maps_word, ih.rtypes_le, ?_, ?_⟩
    · intro x hx
      simp only [Mcr.ppv_weights, List.mem_map] at hx
      obtain ⟨y, hy, rfl⟩ := hx
      exact ih.edges_src y hy
    · intro x hx
      simp only [Mcr.ppv_weights, List.mem_map] at hx
      obtain ⟨y, hy, rfl⟩ := hx
      exact ih.edges_tgt y hy
    · intro x hx
      simp only [Mcr.ppv_weights, List.mem_map] at hx
      obtain ⟨y, hy, rfl⟩ := hx
      exact ih.masks_lt y hy
    · refine ⟨fun h1 => ?_, fun h2 => ?_⟩
      · simp only [Mcr.ppv_weights] at h1
        by_cases hst : m.coef_status = 2
        · simp [hst] at h1
        · simp only [hst, if_false] at h1
          have := ih.coefs.1 h1
          calc (m.ppv_weights ppv).out_coefs = m.out_coefs := rfl
            _ = m.computeCoefs false := this
            _ = (m.ppv_weights ppv).computeCoefs false :=
                (computeCoefs_ppvw_false m ppv).symm
      · simp only [Mcr.ppv_weights] at h2
        by_cases hst : m.coef_status = 2
        · simp [hst] at h2
        · simp only [hst, if_false] at h2
  | rank m ppv uw hb ih =>
    have hfields := updateCoefs_graph_fields m uw
    have hcoef := coefok_updateCoefs m uw ih.coefs
    show McrInv (m.updateCoefs uw)
    refine ⟨?_, ?_, ?_, ?_, ?_, ?_, hcoef.1⟩
    · rw [hfields.2.1, hfields.1]; exact ih.edges_src
    · rw [hfields.2.1, hfields.1]; exact ih.edges_tgt
    · rw [hfields.2.2.1, hfields.1]; exact ih.maps_syn
    · rw [hfields.2.2.2.1, hfields.1]; exact ih.maps_word
    · rw [hfields.2.2.2.2]; exact ih.rtypes_le
    · rw [hfields.2.1, hfields.2.2.2.2]; exact ih.masks_lt

/-- Claim C1: snapshot round-trip is the identity — for every graph built by
a sequence of construction operations, writing with `write_to_binfile` and
reading back with `create_from_binfile` succeeds and yields an
observationally identical graph: same vertex table (names, kind flags,
glosses), same edge table (weights and masks, hence the same decoded
relation-label lists), same registry order, same relation-source set, same
annotation log, and even the same name maps. -/
theorem claim1_roundtrip (m : Mcr) (h : Built m) :
    ∃ m2 : Mcr, create_from_binfile (m.write_to_binfile).2 = Except.ok m2 ∧
      ObsEq m2 m ∧ m2.synsetMap = m.synsetMap ∧ m2.wordMap = m.wordMap := by
  have inv := built_inv m h
  refine ⟨_, create_from_binfile_write m, ⟨rfl, rfl, rfl, rfl, rfl⟩, ?_, ?_⟩
  · exact inv.maps_syn.symm
  · exact inv.maps_word.symm

theorem claim1Graph_built : Built claim1Graph :=
  Built.comment _ "built by test"
    (Built.relSourceAdd _ "wn30"
      (Built.word _ "cat"
        (Built.reltype _ 0 "hypernym"
          (Built.edge _ 0 1 (3 / 2)
            (Built.synset _ "feline" (Built.synset _ "cat" Built.empty))
            (by decide) (by decide)))))

theorem claim1_roundtrip_witness :
    ∃ m2 : Mcr,
      create_from_binfile (claim1Graph.write_to_binfile).2 = Except.ok m2 ∧
        ObsEq m2 claim1Graph ∧ m2.synsetMap = claim1Graph.synsetMap ∧
        m2.wordMap = claim1Graph.wordMap :=
  claim1_roundtrip claim1Graph claim1Graph_built

/-! ## BFS lemmas -/

theorem bfsVisit_acc (vs : List Nat) :
    ∀ (disc : List Bool) (acc queue : List Nat),
      ∃ l, (bfsVisit disc acc queue vs).2.1 = acc ++ l := by
  induction vs with
  | nil => intro disc acc queue; exact ⟨[], by simp [bfsVisit]⟩
  | cons v vs ih =>
    intro disc acc queue
    by_cases hv : getB disc v
    · simpa [bfsVisit, hv] using ih disc acc queue
    · obtain ⟨l, hl⟩ := ih (setB disc v) (acc ++ [v]) (queue ++ [v])
      refine ⟨[v] ++ l, ?_⟩
      simp only [bfsVisit, hv, if_false, Bool.false_eq_true]
      rw [hl, List.append_assoc]

theorem bfsLoop_nilqueue (m : Mcr) (fuel : Nat) (disc : List Bool)
    (acc : List Nat) : bfsLoop m fuel [] disc acc = acc := by
  cases fuel <;> rfl

theorem bfsLoop_acc (m : Mcr) (fuel : Nat) :
    ∀ (queue : List Nat) (disc : List Bool) (acc : List Nat),
      ∃ l, bfsLoop m fuel queue disc acc = acc ++ l := by
  induction fuel with
  | zero => intro queue disc acc; exact ⟨[], by simp [bfsLoop]⟩
  | succ fuel ih =>
    intro queue disc acc
    cases queue with
    | nil => exact ⟨[], by simp [bfsLoop]⟩
    | cons u rest =>
      obtain ⟨l1, hl1⟩ := bfsVisit_acc (m.outTargets u) disc acc rest
      obtain ⟨l2, hl2⟩ := ih (bfsVisit disc acc rest (m.outTargets u)).2.2
        (bfsVisit disc acc rest (m.outTargets u)).1
        (bfsVisit disc acc rest (m.outTargets u)).2.1
      refine ⟨l1 ++ l2, ?_⟩
      simp only [bfsLoop]
      rw [hl2, hl1, List.append_assoc]

/-- Claim C8: BFS reachability and discovery order — for an existing source,
`bfs` succeeds, the visitation order starts with the source, and a source
with no outgoing edges yields exactly the one-element traversal `[src]` with
success; on the chain A→B→C, `bfs(A)` visits `[A, B, C]` in that order and
`bfs(C)` visits `[C]` without failure. -/
theorem claim8_bfs (m : Mcr) (src : Nat) (hsrc : src < m.size) :
    ((m.bfs src).1 = true ∧ (∃ l, (m.bfs src).2 = src :: l) ∧
      (m.outTargets src = [] → m.bfs src = (true, [src]))) ∧
    bfsGraph.bfs 0 = (true, [0, 1, 2]) ∧ bfsGraph.bfs 2 = (true, [2]) := by
  refine ⟨⟨?_, ?_, ?_⟩, by decide, by decide⟩
  · simp [Mcr.bfs, hsrc]
  · obtain ⟨k, hk⟩ : ∃ k, m.size = k + 1 := ⟨m.size - 1, by omega⟩
    simp only [Mcr.bfs, if_pos hsrc]
    rw [hk]
    simp only [bfsLoop]
    obtain ⟨l1, hl1⟩ := bfsVisit_acc (m.outTargets src)
      (setB (List.replicate (k + 1) false) src) [src] []
    obtain ⟨l2, hl2⟩ :=
      bfsLoop_acc m k
        (bfsVisit (setB (List.replicate (k + 1) false) src) [src] []
          (m.outTargets src)).2.2
        (bfsVisit (setB (List.replicate (k + 1) false) src) [src] []
          (m.outTargets src)).1
        (bfsVisit (setB (List.replicate (k + 1) false) src) [src] []
          (m.outTargets src)).2.1
    refine ⟨l1 ++ l2, ?_⟩
    rw [hl2, hl1]
    simp
  · intro hout
    obtain ⟨k, hk⟩ : ∃ k, m.size = k + 1 := ⟨m.size - 1, by omega⟩
    simp only [Mcr.bfs, if_pos hsrc]
    rw [hk]
    simp only [bfsLoop, hout, bfsVisit]
    rw [bfsLoop_nilqueue]

theorem claim8_bfs_witness :
    0 < bfsGraph.size ∧
      (((bfsGraph.bfs 0).1 = true ∧ (∃ l, (bfsGraph.bfs 0).2 = 0 :: l) ∧
          (bfsGraph.outTargets 0 = [] → bfsGraph.bfs 0 = (true, [0]))) ∧
        bfsGraph.bfs 0 = (true, [0, 1, 2]) ∧ bfsGraph.bfs 2 = (true, [2])) :=
  ⟨by decide, claim8_bfs bfsGraph 0 (by decide)⟩

/-! ## List utilities for the ranking proofs -/

theorem getQ_range_map (n : Nat) (f : Nat → ℚ) (v : Nat) (hv : v < n) :
    getQ ((List.range n).map f) v = f v := by
  unfold getQ
  rw [List.getD_eq_getElem?_getD, List.getElem?_map, List.getElem?_range hv]
  rfl

theorem range_map_getQ (l : List ℚ) : (List.range l.length).map (getQ l) = l := by
  induction l with
  | nil => rfl
  | cons a l ih =>
    rw [List.length_cons, List.range_succ_eq_map]
    simp only [List.map_cons, List.map_map]
    have h2 : (List.range l.length).map (getQ (a :: l) ∘ Nat.succ) = l := by
      have h3 : (List.range l.length).map (getQ (a :: l) ∘ Nat.succ)
          = (List.range l.length).map (getQ l) := by
        refine List.map_congr_left fun i hi => ?_
        simp [Function.comp, getQ, List.getD_cons_succ, Nat.succ_eq_add_one]
      rw [h3, ih]
    rw [h2]
    rfl

theorem getQ_nonneg (l : List ℚ) (h : ∀ x ∈ l, 0 ≤ x) (i : Nat) :
    0 ≤ getQ l i := by
  unfold getQ
  rw [List.getD_eq_getElem?_getD]
  cases hg : l[i]? with
  | none => simp
  | some a => exact le_of_le_of_eq (h a (List.getElem?_mem hg)) (by simp)

theorem sum_map_add {α : Type} (l : List α) (f g : α → ℚ) :
    (l.map (fun x => f x + g x)).sum = (l.map f).sum + (l.map g).sum := by
  induction l with
  | nil => simp
  | cons a l ih => simp [ih]; ring

theorem sum_map_sub {α : Type} (l : List α) (f g : α → ℚ) :
    (l.map (fun x => f x - g x)).sum = (l.map f).sum - (l.map g).sum := by
  induction l with
  | nil => simp
  | cons a l ih => simp [ih]; ring

theorem sum_map_div {α : Type} (l : List α) (f : α → ℚ) (c : ℚ) :
    (l.map (fun x => f x / c)).sum = (l.map f).sum / c := by
  induction l with
  | nil => simp
  | cons a l ih => simp [ih]; ring

theorem abs_sum_le (l : List ℚ) : |l.sum| ≤ (l.map (fun x => |x|)).sum := by
  induction l with
  | nil => simp
  | cons a l ih =>
    simp only [List.sum_cons, List.map_cons]
    exact le_trans (abs_add a l.sum) (by linarith)

theorem sum_range_ite (n k : Nat) (hk : k < n) (G : Nat → ℚ) :
    ((List.range n).map (fun v => if k = v then G v else 0)).sum = G k := by
  induction n with
  | zero => omega
  | succ n ih =>
    rw [List.range_succ, List.map_append, List.sum_append]
    by_cases hkn : k = n
    · subst hkn
      have h0 : ((List.range k).map (fun v => if k = v then G v else 0)).sum
          = 0 := by
        refine List.sum_eq_zero fun x hx => ?_
        obtain ⟨v, hv, rfl⟩ := List.mem_map.mp hx
        rw [if_neg]
        intro hkv
        rw [hkv] at hv
        exact absurd (List.mem_range.mp hv) (lt_irrefl v)
      rw [h0]
      simp
    · have hk2 : k < n := by omega
      simp [hkn, ih hk2]

theorem sum_range_filter_key (n : Nat) (l : List Edge) (key : Edge → Nat)
    (F : Nat → Edge → ℚ) (hk : ∀ e ∈ l, key e < n) :
    ((List.range n).map
        (fun v => ((l.filter (fun e => key e == v)).map (F v)).sum)).sum =
      (l.map (fun e => F (key e) e)).sum := by
  induction l with
  | nil => simp
  | cons e l ih =>
    have hkey := hk e (List.mem_cons_self e l)
    have hrest : ∀ x ∈ l, key x < n :=
      fun x hx => hk x (List.mem_cons_of_mem e hx)
    have hsplit : ∀ v, (((e :: l).filter (fun x => key x == v)).map (F v)).sum
        = (if key e = v then F v e else 0) +
          ((l.filter (fun x => key x == v)).map (F v)).sum := by
      intro v
      by_cases hv : key e = v
      · simp [List.filter_cons, hv]
      · simp [List.filter_cons, hv]
    calc ((List.range n).map
        (fun v => (((e :: l).filter (fun x => key x == v)).map (F v)).sum)).sum
        = ((List.range n).map (fun v =>
            (if key e = v then F v e else 0) +
              ((l.filter (fun x => key x == v)).map (F v)).sum)).sum := by
          exact congrArg List.sum (List.map_congr_left fun v hv => hsplit v)
      _ = ((List.range n).map (fun v => if key e = v then F v e else 0)).sum +
            ((List.range n).map (fun v =>
              ((l.filter (fun x => key x == v)).map (F v)).sum)).sum :=
          sum_map_add _ _ _
      _ = F (key e) e + (l.map (fun x => F (key x) x)).sum := by
          rw [sum_range_ite n (key e) hkey, ih hrest]
      _ = ((e :: l).map (fun x => F (key x) x)).sum := by simp

theorem sum_ite_zero_add_filter (l : List Nat) (p : Nat → Bool) (f : Nat → ℚ) :
    (l.map (fun u => if p u then 0 else f u)).sum +
      ((l.filter p).map f).sum = (l.map f).sum := by
  induction l with
  | nil => simp
  | cons u l ih =>
    by_cases hu : p u
    · simp only [List.map_cons, List.sum_cons, List.filter_cons, hu, if_true]
      rw [← ih]
      ring
    · simp only [List.map_cons, List.sum_cons, List.filter_cons, hu, if_false,
        Bool.false_eq_true]
      rw [← ih]
      ring

theorem l1dist_self (x : List ℚ) : l1dist x x = 0 := by
  unfold l1dist
  rw [List.zipWith_same]
  exact List.sum_eq_zero fun a ha => by
    obtain ⟨b, hb, rfl⟩ := List.mem_map.mp ha
    simp

theorem l1dist_range (x y : List ℚ) (n : Nat) (hx : x.length = n)
    (hy : y.length = n) :
    l1dist x y = ((List.range n).map (fun v => |getQ x v - getQ y v|)).sum := by
  induction x generalizing y n with
  | nil =>
    cases y with
    | nil => simp [l1dist, ← hx]
    | cons b y => rw [← hx] at hy; cases hy
  | cons a x ih =>
    cases y with
    | nil => rw [← hx] at hy; cases hy
    | cons b y =>
      cases n with
      | zero => cases hx
      | succ n =>
        have hx2 : x.length = n := by simpa using hx
        have hy2 : y.length = n := by simpa using hy
        simp only [l1dist, List.zipWith_cons_cons, List.sum_cons]
        rw [List.range_succ_eq_map, List.map_cons, List.sum_cons, List.map_map]
        have : (List.range n).map
            ((fun v => |getQ (a :: x) v - getQ (b :: y) v|) ∘ Nat.succ) =
            (List.range n).map (fun v => |getQ x v - getQ y v|) := by
          refine List.map_congr_left fun v hv => ?_
          simp [Function.comp, getQ, List.getD_cons_succ, Nat.succ_eq_add_one]
        rw [this, ← ih y n hx2 hy2]
        rfl

theorem l1dist_le_sums (x y : List ℚ) (n : Nat) (hx : x.length = n)
    (hy : y.length = n) (hxn : ∀ a ∈ x, 0 ≤ a) (hyn : ∀ a ∈ y, 0 ≤ a) :
    l1dist x y ≤ x.sum + y.sum := by
  rw [l1dist_range x y n hx hy]
  have h1 : ((List.range n).map (fun v => |getQ x v - getQ y v|)).sum ≤
      ((List.range n).map (fun v => getQ x v + getQ y v)).sum := by
    refine List.sum_le_sum fun v hv => ?_
    have := abs_sub (getQ x v) (getQ y v)
    calc |getQ x v - getQ y v| ≤ |getQ x v| + |getQ y v| := abs_sub _ _
      _ = getQ x v + getQ y v := by
          rw [abs_of_nonneg (getQ_nonneg x hxn v),
            abs_of_nonneg (getQ_nonneg y hyn v)]
  calc ((List.range n).map (fun v => |getQ x v - getQ y v|)).sum
      ≤ ((List.range n).map (fun v => getQ x v + getQ y v)).sum := h1
    _ = ((List.range n).map (getQ x)).sum +
          ((List.range n).map (getQ y)).sum := sum_map_add _ _ _
    _ = x.sum + y.sum := by
        have e1 : ((List.range n).map (getQ x)).sum = x.sum := by
          rw [← hx, range_map_getQ]
        have e2 : ((List.range n).map (getQ y)).sum = y.sum := by
          rw [← hy, range_map_getQ]
        rw [e1, e2]

/-! ## PageRank structural lemmas -/

theorem prStep_length (m : Mcr) (uw : Bool) (coefs ppv old : List ℚ) :
    (m.prStep uw coefs ppv old).length = m.verts.length := by
  simp [Mcr.prStep]

theorem prIter_length (m : Mcr) (uw : Bool) (coefs ppv : List ℚ) :
    ∀ (fuel : Nat), 1 ≤ fuel → ∀ (cur : List ℚ),
      (m.prIter uw coefs ppv fuel cur).length = m.verts.length := by
  intro fuel
  induction fuel with
  | zero => intro h; omega
  | succ fuel ih =>
    intro _ cur
    simp only [Mcr.prIter]
    split
    · exact prStep_length m uw coefs ppv cur
    · cases fuel with
      | zero => exact prStep_length m uw coefs ppv cur
      | succ f => exact ih (by omega) _

theorem prStep_congr (m1 m2 : Mcr) (hv : m1.verts = m2.verts)
    (he : m1.edges = m2.edges) (uw : Bool) (coefs ppv old : List ℚ) :
    m1.prStep uw coefs ppv old = m2.prStep uw coefs ppv old := by
  unfold Mcr.prStep Mcr.inFlow Mcr.danglingMass Mcr.outDeg
  rw [hv, he]

theorem prIter_congr (m1 m2 : Mcr) (hv : m1.verts = m2.verts)
    (he : m1.edges = m2.edges) (uw : Bool) (coefs ppv : List ℚ) :
    ∀ (fuel : Nat) (cur : List ℚ),
      m1.prIter uw coefs ppv fuel cur = m2.prIter uw coefs ppv fuel cur := by
  intro fuel
  induction fuel with
  | zero => intro cur; rfl
  | succ fuel ih =>
    intro cur
    simp only [Mcr.prIter]
    rw [prStep_congr m1 m2 hv he uw coefs ppv cur]
    split
    · rfl
    · exact ih _

theorem computeCoefs_congr (m1 m2 : Mcr) (hv : m1.verts = m2.verts)
    (he : m1.edges = m2.edges) (uw : Bool) :
    m1.computeCoefs uw = m2.computeCoefs uw := by
  unfold Mcr.computeCoefs Mcr.outSum
  rw [hv, he]

/-! ## Out-coefficient facts -/

theorem outSum_nonneg (m : Mcr) (uw : Bool) (u : Nat)
    (hw : uw = true → ∀ e ∈ m.edges, 0 < e.eweight) : 0 ≤ m.outSum uw u := by
  refine List.sum_nonneg fun x hx => ?_
  obtain ⟨e, he, rfl⟩ := List.mem_map.mp hx
  have hee : e ∈ m.edges := (List.mem_filter.mp he).1
  cases uw
  · simp [edgeCoefWeight]
  · simpa [edgeCoefWeight] using le_of_lt (hw rfl e hee)

theorem outSum_pos (m : Mcr) (uw : Bool) (u : Nat)
    (hw : uw = true → ∀ e ∈ m.edges, 0 < e.eweight)
    (hne : m.edges.filter (fun e => e.esrc == u) ≠ []) :
    0 < m.outSum uw u := by
  refine List.sum_pos _ (fun x hx => ?_) ?_
  · obtain ⟨e, he, rfl⟩ := List.mem_map.mp hx
    have hee : e ∈ m.edges := (List.mem_filter.mp he).1
    cases uw
    · simp [edgeCoefWeight]
    · simpa [edgeCoefWeight] using hw rfl e hee
  · intro hmap
    exact hne (List.map_eq_nil_iff.mp hmap)

theorem colsum_eq_one (m : Mcr) (uw : Bool) (u : Nat)
    (hw : uw = true → ∀ e ∈ m.edges, 0 < e.eweight)
    (hne : m.edges.filter (fun e => e.esrc == u) ≠ []) :
    ((m.edges.filter (fun e => e.esrc == u)).map
      (fun e => edgeCoefWeight uw e / m.outSum uw u)).sum = 1 := by
  rw [sum_map_div]
  exact div_self (ne_of_gt (outSum_pos m uw u hw hne))

theorem getQ_computeCoefs (m : Mcr) (uw : Bool) (u : Nat)
    (hu : u < m.verts.length) :
    getQ (m.computeCoefs uw) u = m.outSum uw u :=
  getQ_range_map m.verts.length (m.outSum uw) u hu

theorem getQ_computeCoefs_nonneg (m : Mcr) (uw : Bool)
    (hw : uw = true → ∀ e ∈ m.edges, 0 < e.eweight) (i : Nat) :
    0 ≤ getQ (m.computeCoefs uw) i := by
  refine getQ_nonneg _ (fun x hx => ?_) i
  obtain ⟨u, hu, rfl⟩ := List.mem_map.mp hx
  exact outSum_nonneg m uw u hw

/-! ## The transition sum: one application of the dangling-aware transition
matrix to any per-vertex quantity preserves its total. -/

theorem sum_M (m : Mcr) (uw : Bool) (ppv : List ℚ) (f : Nat → ℚ)
    (hsrc : ∀ e ∈ m.edges, e.esrc < m.verts.length)
    (htgt : ∀ e ∈ m.edges, e.etgt < m.verts.length)
    (hw : uw = true → ∀ e ∈ m.edges, 0 < e.eweight)
    (hpsum : ppv.sum = 1) (hplen : ppv.length = m.verts.length) :
    ((List.range m.verts.length).map (fun v =>
        ((m.edges.filter (fun e => e.etgt == v)).map
          (fun e => f e.esrc *
            (edgeCoefWeight uw e / getQ (m.computeCoefs uw) e.esrc))).sum +
        (((List.range m.verts.length).filter
            (fun u => m.outDeg u == 0)).map f).sum * getQ ppv v)).sum =
      ((List.range m.verts.length).map f).sum := by
  rw [sum_map_add]
  have hA : ((List.range m.verts.length).map (fun v =>
      ((m.edges.filter (fun e => e.etgt == v)).map
        (fun e => f e.esrc *
          (edgeCoefWeight uw e / getQ (m.computeCoefs uw) e.esrc))).sum)).sum =
      (m.edges.map (fun e => f e.esrc *
        (edgeCoefWeight uw e / getQ (m.computeCoefs uw) e.esrc))).sum :=
    sum_range_filter_key m.verts.length m.edges (fun e => e.etgt)
      (fun _ e => f e.esrc *
        (edgeCoefWeight uw e / getQ (m.computeCoefs uw) e.esrc)) htgt
  have hB : (m.edges.map (fun e => f e.esrc *
      (edgeCoefWeight uw e / getQ (m.computeCoefs uw) e.esrc))).sum =
      ((List.range m.verts.length).map (fun u =>
        ((m.edges.filter (fun e => e.esrc == u)).map
          (fun e => f u *
            (edgeCoefWeight uw e / getQ (m.computeCoefs uw) u))).sum)).sum :=
    (sum_range_filter_key m.verts.length m.edges (fun e => e.esrc)
      (fun u e => f u *
        (edgeCoefWeight uw e / getQ (m.computeCoefs uw) u)) hsrc).symm
  have hperu : ∀ u ∈ List.range m.verts.length,
      ((m.edges.filter (fun e => e.esrc == u)).map
        (fun e => f u *
          (edgeCoefWeight uw e / getQ (m.computeCoefs uw) u))).sum =
      (if m.outDeg u == 0 then 0 else f u) := by
    intro u hu
    have hun : u < m.verts.length := List.mem_range.mp hu
    by_cases hdeg : m.edges.filter (fun e => e.esrc == u) = []
    · have hif : (m.outDeg u == 0) = true := by
        simp [Mcr.outDeg, hdeg]
      rw [hdeg, hif]
      simp
    · have hif : (m.outDeg u == 0) = false := by
        simp only [Mcr.outDeg]
        simp [List.length_eq_zero, hdeg]
      rw [hif]
      rw [List.sum_map_mul_left, getQ_computeCoefs m uw u hun,
        colsum_eq_one m uw u hw hdeg]
      simp
  have hC : ((List.range m.verts.length).map (fun u =>
      ((m.edges.filter (fun e => e.esrc == u)).map
        (fun e => f u *
          (edgeCoefWeight uw e / getQ (m.computeCoefs uw) u))).sum)).sum =
      ((List.range m.verts.length).map
        (fun u => if m.outDeg u == 0 then 0 else f u)).sum :=
    congrArg List.sum (List.map_congr_left hperu)
  have hD : ((List.range m.verts.length).map (fun v =>
      (((List.range m.verts.length).filter
          (fun u => m.outDeg u == 0)).map f).sum * getQ ppv v)).sum =
      (((List.range m.verts.length).filter
        (fun u => m.outDeg u == 0)).map f).sum := by
    rw [List.sum_map_mul_left]
    have : ((List.range m.verts.length).map (getQ ppv)).sum = 1 := by
      rw [← hplen, range_map_getQ, hpsum]
    rw [← hplen] at this ⊢
    rw [range_map_getQ] at this
    rw [range_map_getQ, hpsum, mul_one]
  rw [hA, hB, hC, hD]
  exact sum_ite_zero_add_filter (List.range m.verts.length)
    (fun u => m.outDeg u == 0) f

/-! ## Mass conservation, nonnegativity, and degenerate cases -/

theorem prStep_sum (m : Mcr) (uw : Bool) (ppv old : List ℚ)
    (hsrc : ∀ e ∈ m.edges, e.esrc < m.verts.length)
    (htgt : ∀ e ∈ m.edges, e.etgt < m.verts.length)
    (hw : uw = true → ∀ e ∈ m.edges, 0 < e.eweight)
    (hpsum : ppv.sum = 1) (hplen : ppv.length = m.verts.length)
    (hold : old.length = m.verts.length) :
    (m.prStep uw (m.computeCoefs uw) ppv old).sum =
      (1 - damping) + damping * old.sum := by
  unfold Mcr.prStep
  rw [sum_map_add, List.sum_map_mul_left, List.sum_map_mul_left]
  have h1 : ((List.range m.verts.length).map (getQ ppv)).sum = 1 := by
    rw [← hplen, range_map_getQ, hpsum]
  have h2 : ((List.range m.verts.length).map (fun v =>
      m.inFlow uw (m.computeCoefs uw) old v +
        m.danglingMass old * getQ ppv v)).sum = old.sum := by
    have h3 := sum_M m uw ppv (getQ old) hsrc htgt hw hpsum hplen
    have h4 : ((List.range m.verts.length).map (getQ old)).sum = old.sum := by
      rw [← hold, range_map_getQ]
    exact h3.trans h4
  rw [h1, h2]
  ring

theorem prStep_nonneg (m : Mcr) (uw : Bool) (coefs ppv old : List ℚ)
    (hppv : ∀ x ∈ ppv, 0 ≤ x) (hold : ∀ x ∈ old, 0 ≤ x)
    (hcoefs : ∀ i, 0 ≤ getQ coefs i)
    (hw : uw = true → ∀ e ∈ m.edges, 0 < e.eweight) :
    ∀ x ∈ m.prStep uw coefs ppv old, 0 ≤ x := by
  intro x hx
  obtain ⟨v, hv, rfl⟩ := List.mem_map.mp hx
  have hp := getQ_nonneg ppv hppv v
  have hd : (0:ℚ) ≤ damping := by norm_num [damping]
  have h1d : (0:ℚ) ≤ 1 - damping := by norm_num [damping]
  have hin : 0 ≤ m.inFlow uw coefs old v := by
    refine List.sum_nonneg fun y hy => ?_
    obtain ⟨e, he, rfl⟩ := List.mem_map.mp hy
    have hee : e ∈ m.edges := (List.mem_filter.mp he).1
    refine mul_nonneg (getQ_nonneg old hold _) (div_nonneg ?_ (hcoefs _))
    cases uw
    · simp [edgeCoefWeight]
    · simpa [edgeCoefWeight] using le_of_lt (hw rfl e hee)
  have hD : 0 ≤ m.danglingMass old := by
    refine List.sum_nonneg fun y hy => ?_
    obtain ⟨u, hu, rfl⟩ := List.mem_map.mp hy
    exact getQ_nonneg old hold u
  exact add_nonneg (mul_nonneg h1d hp)
    (mul_nonneg hd (add_nonneg hin (mul_nonneg hD hp)))

theorem prStep_isolated (m : Mcr) (uw : Bool) (coefs ppv : List ℚ)
    (hedges : m.edges = []) (hplen : ppv.length = m.verts.length)
    (hpsum : ppv.sum = 1) :
    m.prStep uw coefs ppv ppv = ppv := by
  have hD : m.danglingMass ppv = 1 := by
    unfold Mcr.danglingMass Mcr.outDeg
    rw [hedges]
    simp only [List.filter_nil, List.length_nil]
    have hfe : (List.range m.verts.length).filter
        (fun _ => ((0 : Nat) == 0)) = List.range m.verts.length :=
      List.filter_eq_self.mpr (fun a ha => rfl)
    rw [hfe, ← hplen, range_map_getQ, hpsum]
  have hI : ∀ v, m.inFlow uw coefs ppv v = 0 := by
    intro v
    unfold Mcr.inFlow
    rw [hedges]
    simp
  unfold Mcr.prStep
  have hent : ∀ v ∈ List.range m.verts.length,
      (1 - damping) * getQ ppv v +
        damping * (m.inFlow uw coefs ppv v +
          m.danglingMass ppv * getQ ppv v) = getQ ppv v := by
    intro v hv
    rw [hD, hI]
    ring
  rw [List.map_congr_left hent, ← hplen, range_map_getQ]

theorem prIter_once (m : Mcr) (uw : Bool) (coefs ppv : List ℚ) (fuel : Nat)
    (hf : 1 ≤ fuel) (cur : List ℚ)
    (hconv : l1dist (m.prStep uw coefs ppv cur) cur < prThreshold) :
    m.prIter uw coefs ppv fuel cur = m.prStep uw coefs ppv cur := by
  cases fuel with
  | zero => omega
  | succ f => simp only [Mcr.prIter, if_pos hconv]

theorem pagerank_isolated (m : Mcr) (ppv : List ℚ) (uw : Bool)
    (hedges : m.edges = []) (hplen : ppv.length = m.size)
    (hpsum : ppv.sum = 1) :
    (m.pageRank_ppv ppv uw).2 = ppv := by
  have hv2 : (m.updateCoefs uw).verts = m.verts :=
    (updateCoefs_graph_fields m uw).1
  have he2 : (m.updateCoefs uw).edges = [] := by
    rw [(updateCoefs_graph_fields m uw).2.1, hedges]
  have hstep : (m.updateCoefs uw).prStep uw (m.updateCoefs uw).out_coefs ppv ppv
      = ppv :=
    prStep_isolated _ uw _ ppv he2 (by rw [hv2]; exact hplen) hpsum
  show (m.updateCoefs uw).prIter uw (m.updateCoefs uw).out_coefs ppv
      prMaxIter ppv = ppv
  rw [prIter_once _ uw _ ppv prMaxIter (by norm_num [prMaxIter]) ppv
    (by rw [hstep, l1dist_self]; norm_num [prThreshold])]
  exact hstep

/-- Claim C5: ranking totality and termination — `pageRank_ppv` (a bounded
power iteration, hence total) always returns a full-length rank vector, on
the empty graph it returns the empty vector, and on a graph of all isolated
vertices with a normalized restart vector the ranks are exactly the restart
distribution. -/
theorem claim5_totality (m : Mcr) (ppv : List ℚ) (uw : Bool) :
    (m.pageRank_ppv ppv uw).2.length = m.size ∧
      (m.verts = [] → (m.pageRank_ppv ppv uw).2 = []) ∧
      (m.edges = [] → ppv.length = m.size → ppv.sum = 1 →
        (m.pageRank_ppv ppv uw).2 = ppv) := by
  have hlen : (m.pageRank_ppv ppv uw).2.length = m.size := by
    show ((m.updateCoefs uw).prIter uw (m.updateCoefs uw).out_coefs ppv
      prMaxIter ppv).length = m.size
    rw [prIter_length (m.updateCoefs uw) uw _ ppv prMaxIter
      (by norm_num [prMaxIter]) ppv]
    rw [(updateCoefs_graph_fields m uw).1]
    rfl
  refine ⟨hlen, ?_, fun he hl hs => pagerank_isolated m ppv uw he hl hs⟩
  intro hv
  refine List.length_eq_zero.mp ?_
  rw [hlen]
  simp [Mcr.size, hv]

theorem claim5_totality_witness :
    (isolatedGraph.pageRank_ppv [1] false).2.length = isolatedGraph.size ∧
      (isolatedGraph.pageRank_ppv [1] false).2 = [1] := by
  refine ⟨(claim5_totality isolatedGraph [1] false).1, ?_⟩
  refine (claim5_totality isolatedGraph [1] false).2.2 (by decide) (by decide) ?_
  norm_num

/-! ## Cache-status lemmas -/

theorem updateCoefs_status (m : Mcr) (uw : Bool) :
    (m.updateCoefs uw).coef_status = (if uw then 2 else 1) := by
  unfold Mcr.updateCoefs
  by_cases heq : m.coef_status = (if uw then 2 else 1)
  · rw [if_pos heq]
    exact heq
  · rw [if_neg heq]

theorem ppv_weights_status_ne_two (m : Mcr) (ppv : List ℚ) :
    (m.ppv_weights ppv).coef_status ≠ 2 := by
  unfold Mcr.ppv_weights
  by_cases h : m.coef_status = 2 <;> simp [h]

theorem updateCoefs_recompute_true (m : Mcr) (h : m.coef_status ≠ 2) :
    (m.updateCoefs true).out_coefs = m.computeCoefs true := by
  unfold Mcr.updateCoefs
  rw [if_neg (by simpa using h)]

/-- Claim C6: normalization-cache coherence — on every reachable state the
status tag truthfully describes the out-coefficient cache (`CoefOK`); before
iterating, the cache refresh produces exactly the coefficients of the
requested mode for the current graph and sets the tag accordingly; and
`ppv_weights` leaves the tag different from 2 (weighted), so a subsequent
weighted ranking recomputes its coefficients from the freshly mutated
weights. -/
theorem claim6_cache_coherence (m : Mcr) (hb : Built m) (uw : Bool)
    (ppv : List ℚ) :
    CoefOK m ∧
      (CoefOK (m.updateCoefs uw) ∧
        (m.updateCoefs uw).out_coefs = m.computeCoefs uw ∧
        (m.updateCoefs uw).coef_status = (if uw then 2 else 1)) ∧
      (m.ppv_weights ppv).coef_status ≠ 2 ∧
      ((m.ppv_weights ppv).updateCoefs true).out_coefs =
        (m.ppv_weights ppv).computeCoefs true := by
  have hok := (built_inv m hb).coefs
  refine ⟨hok, ⟨(coefok_updateCoefs m uw hok).1, (coefok_updateCoefs m uw hok).2,
      updateCoefs_status m uw⟩,
    ppv_weights_status_ne_two m ppv,
    updateCoefs_recompute_true _ (ppv_weights_status_ne_two m ppv)⟩

theorem claim6_cache_coherence_witness :
    CoefOK claim1Graph ∧
      (CoefOK (claim1Graph.updateCoefs true) ∧
        (claim1Graph.updateCoefs true).out_coefs =
          claim1Graph.computeCoefs true ∧
        (claim1Graph.updateCoefs true).coef_status = (if true then 2 else 1)) ∧
      (claim1Graph.ppv_weights [1, 1]).coef_status ≠ 2 ∧
      ((claim1Graph.ppv_weights [1, 1]).updateCoefs true).out_coefs =
        (claim1Graph.ppv_weights [1, 1]).computeCoefs true :=
  claim6_cache_coherence claim1Graph claim1Graph_built true [1, 1]

/-! ## The power-iteration step is a damping-factor contraction in L1 -/

theorem prStep_pointwise_bound (m : Mcr) (uw : Bool) (ppv x y : List ℚ)
    (hw : uw = true → ∀ e ∈ m.edges, 0 < e.eweight)
    (hpnn : ∀ a ∈ ppv, 0 ≤ a) (v : Nat) (hv : v < m.verts.length) :
    |getQ (m.prStep uw (m.computeCoefs uw) ppv x) v -
        getQ (m.prStep uw (m.computeCoefs uw) ppv y) v| ≤
      damping * (((m.edges.filter (fun e => e.etgt == v)).map
          (fun e => |getQ x e.esrc - getQ y e.esrc| *
            (edgeCoefWeight uw e / getQ (m.computeCoefs uw) e.esrc))).sum +
        (((List.range m.verts.length).filter (fun u => m.outDeg u == 0)).map
          (fun u => |getQ x u - getQ y u|)).sum * getQ ppv v) := by
  have hd : (0:ℚ) ≤ damping := by norm_num [damping]
  have hr : ∀ e ∈ m.edges,
      0 ≤ edgeCoefWeight uw e / getQ (m.computeCoefs uw) e.esrc := by
    intro e he
    refine div_nonneg ?_ (getQ_computeCoefs_nonneg m uw hw _)
    cases uw
    · simp [edgeCoefWeight]
    · simpa [edgeCoefWeight] using le_of_lt (hw rfl e he)
  unfold Mcr.prStep
  rw [getQ_range_map _ _ v hv, getQ_range_map _ _ v hv]
  have key : ∀ A B C D p : ℚ,
      ((1 - damping) * p + damping * (A + C * p)) -
        ((1 - damping) * p + damping * (B + D * p)) =
      damping * ((A - B) + (C - D) * p) := by
    intro A B C D p
    ring
  rw [key]
  rw [abs_mul, abs_of_nonneg hd]
  refine mul_le_mul_of_nonneg_left ?_ hd
  refine le_trans (abs_add _ _) (add_le_add ?_ ?_)
  · have hsub : ((m.edges.filter (fun e => e.etgt == v)).map
        (fun e => (getQ x e.esrc - getQ y e.esrc) *
          (edgeCoefWeight uw e / getQ (m.computeCoefs uw) e.esrc))).sum =
        m.inFlow uw (m.computeCoefs uw) x v -
          m.inFlow uw (m.computeCoefs uw) y v := by
      unfold Mcr.inFlow
      rw [← sum_map_sub]
      refine congrArg List.sum (List.map_congr_left fun e he => ?_)
      ring
    rw [← hsub]
    refine le_trans (abs_sum_le _) ?_
    rw [List.map_map]
    refine le_of_eq (congrArg List.sum (List.map_congr_left fun e he => ?_))
    have hee : e ∈ m.edges := (List.mem_filter.mp he).1
    simp only [Function.comp]
    rw [abs_mul, abs_of_nonneg (hr e hee)]
  · rw [abs_mul, abs_of_nonneg (getQ_nonneg ppv hpnn v)]
    refine mul_le_mul_of_nonneg_right ?_ (getQ_nonneg ppv hpnn v)
    have hsub2 : (((List.range m.verts.length).filter
        (fun u => m.outDeg u == 0)).map
        (fun u => getQ x u - getQ y u)).sum =
        m.danglingMass x - m.danglingMass y := by
      unfold Mcr.danglingMass
      rw [← sum_map_sub]
    rw [← hsub2]
    refine le_trans (abs_sum_le _) ?_
    rw [List.map_map]
    refine le_of_eq (congrArg List.sum
      (List.map_congr_left fun u hu => rfl))

theorem prStep_contraction (m : Mcr) (uw : Bool) (ppv x y : List ℚ)
    (hsrc : ∀ e ∈ m.edges, e.esrc < m.verts.length)
    (htgt : ∀ e ∈ m.edges, e.etgt < m.verts.length)
    (hw : uw = true → ∀ e ∈ m.edges, 0 < e.eweight)
    (hpsum : ppv.sum = 1) (hplen : ppv.length = m.verts.length)
    (hpnn : ∀ a ∈ ppv, 0 ≤ a)
    (hx : x.length = m.verts.length) (hy : y.length = m.verts.length) :
    l1dist (m.prStep uw (m.computeCoefs uw) ppv x)
        (m.prStep uw (m.computeCoefs uw) ppv y) ≤ damping * l1dist x y := by
  rw [l1dist_range _ _ m.verts.length (prStep_length m uw _ ppv x)
    (prStep_length m uw _ ppv y)]
  have hbd := List.sum_le_sum (l := List.range m.verts.length)
    (f := fun v => |getQ (m.prStep uw (m.computeCoefs uw) ppv x) v -
      getQ (m.prStep uw (m.computeCoefs uw) ppv y) v|)
    (g := fun v => damping * (((m.edges.filter (fun e => e.etgt == v)).map
      (fun e => |getQ x e.esrc - getQ y e.esrc| *
        (edgeCoefWeight uw e / getQ (m.computeCoefs uw) e.esrc))).sum +
      (((List.range m.verts.length).filter (fun u => m.outDeg u == 0)).map
        (fun u => |getQ x u - getQ y u|)).sum * getQ ppv v))
    (fun v hv => prStep_pointwise_bound m uw ppv x y hw hpnn v
      (List.mem_range.mp hv))
  refine le_trans hbd ?_
  rw [List.sum_map_mul_left]
  rw [sum_M m uw ppv (fun i => |getQ x i - getQ y i|) hsrc htgt hw hpsum hplen]
  rw [l1dist_range x y m.verts.length hx hy]

theorem prIter_exit (m : Mcr) (uw : Bool) (ppv : List ℚ)
    (hsrc : ∀ e ∈ m.edges, e.esrc < m.verts.length)
    (htgt : ∀ e ∈ m.edges, e.etgt < m.verts.length)
    (hw : uw = true → ∀ e ∈ m.edges, 0 < e.eweight)
    (hpsum : ppv.sum = 1) (hplen : ppv.length = m.verts.length)
    (hpnn : ∀ a ∈ ppv, 0 ≤ a) :
    ∀ (fuel : Nat) (cur : List ℚ) (C : ℚ), 1 ≤ fuel →
      cur.length = m.verts.length → cur.sum = 1 → (∀ a ∈ cur, 0 ≤ a) →
      l1dist (m.prStep uw (m.computeCoefs uw) ppv cur) cur ≤ C →
      C * damping ^ (fuel - 1) < prThreshold →
      ∃ p : List ℚ, p.length = m.verts.length ∧ p.sum = 1 ∧
        (∀ a ∈ p, 0 ≤ a) ∧
        m.prIter uw (m.computeCoefs uw) ppv fuel cur =
          m.prStep uw (m.computeCoefs uw) ppv p ∧
        l1dist (m.prStep uw (m.computeCoefs uw) ppv p) p < prThreshold := by
  intro fuel
  induction fuel with
  | zero => intro cur C h; omega
  | succ f ih =>
    intro cur C hf hlen hsum hnn hC hpow
    by_cases hconv :
        l1dist (m.prStep uw (m.computeCoefs uw) ppv cur) cur < prThreshold
    · refine ⟨cur, hlen, hsum, hnn, ?_, hconv⟩
      simp only [Mcr.prIter, if_pos hconv]
    · cases f with
      | zero =>
        exfalso
        simp only [Nat.sub_self, pow_zero, mul_one] at hpow
        exact hconv (lt_of_le_of_lt hC hpow)
      | succ f2 =>
        have hstep : m.prIter uw (m.computeCoefs uw) ppv (f2 + 1 + 1) cur =
            m.prIter uw (m.computeCoefs uw) ppv (f2 + 1)
              (m.prStep uw (m.computeCoefs uw) ppv cur) := by
          simp only [Mcr.prIter, if_neg hconv]
        rw [hstep]
        have hlen2 : (m.prStep uw (m.computeCoefs uw) ppv cur).length =
            m.verts.length := prStep_length m uw _ ppv cur
        have hsum2 : (m.prStep uw (m.computeCoefs uw) ppv cur).sum = 1 := by
          rw [prStep_sum m uw ppv cur hsrc htgt hw hpsum hplen hlen, hsum]
          ring
        have hnn2 : ∀ a ∈ m.prStep uw (m.computeCoefs uw) ppv cur, 0 ≤ a :=
          prStep_nonneg m uw _ ppv cur hpnn hnn
            (getQ_computeCoefs_nonneg m uw hw) hw
        refine ih (m.prStep uw (m.computeCoefs uw) ppv cur) (damping * C)
          (by omega) hlen2 hsum2 hnn2 ?_ ?_
        · refine le_trans (prStep_contraction m uw ppv _ cur hsrc htgt hw
            hpsum hplen hpnn hlen2 hlen) ?_
          exact mul_le_mul_of_nonneg_left hC (by norm_num [damping])
        · have heq : damping * C * damping ^ (f2 + 1 - 1) =
              C * damping ^ (f2 + 1 + 1 - 1) := by
            simp only [Nat.add_sub_cancel]
            rw [pow_succ]
            ring
          rw [heq]
          exact hpow

theorem l1dist_comm (x : List ℚ) : ∀ y : List ℚ, l1dist x y = l1dist y x := by
  induction x with
  | nil => intro y; cases y <;> rfl
  | cons a x ih =>
    intro y
    cases y with
    | nil => rfl
    | cons b y =>
      simp only [l1dist, List.zipWith_cons_cons, List.sum_cons]
      rw [abs_sub_comm a b]
      have := ih y
      simp only [l1dist] at this
      rw [this]

theorem damping_pow_small : 2 * damping ^ 99 < prThreshold := by
  have hd0 : (0:ℚ) ≤ damping := by norm_num [damping]
  have hd1 : damping ≤ 1 := by norm_num [damping]
  have h99 : damping ^ 99 ≤ damping ^ 95 :=
    pow_le_pow_of_le_one hd0 hd1 (by norm_num)
  have h95 : damping ^ 95 = (damping ^ 5) ^ 19 := by
    rw [← pow_mul]
  have h5 : damping ^ 5 ≤ 1 / 2 := by norm_num [damping]
  have h19 : (damping ^ 5) ^ 19 ≤ (1 / 2 : ℚ) ^ 19 :=
    pow_le_pow_left₀ (pow_nonneg hd0 5) h5 19
  have hchain : damping ^ 99 ≤ (1 / 2 : ℚ) ^ 19 :=
    le_trans h99 (le_of_eq_of_le h95 h19)
  have h2 : 2 * damping ^ 99 ≤ 2 * ((1 / 2 : ℚ) ^ 19) := by
    exact mul_le_mul_of_nonneg_left hchain (by norm_num)
  refine lt_of_le_of_lt h2 ?_
  norm_num [prThreshold]

/-- Claim C4: PageRank mass conservation and fixed point — for every
reachable graph (with positive weights when weighting is requested) and
every normalized nonnegative restart vector, the returned rank vector sums
to exactly 1 and satisfies the update rule
`rank = (1 - d) * restart + d * M * rank` within the convergence threshold
(its L1 distance to its own update image is below the threshold); on the
single-isolated-vertex graph with all restart mass on that vertex the ranks
equal the restart vector exactly. -/
theorem claim4_pagerank (m : Mcr) (hb : Built m) (ppv : List ℚ) (uw : Bool)
    (hw : uw = true → ∀ e ∈ m.edges, 0 < e.eweight)
    (hplen : ppv.length = m.size) (hpnn : ∀ a ∈ ppv, 0 ≤ a)
    (hpsum : ppv.sum = 1) :
    ((m.pageRank_ppv ppv uw).2.sum = 1 ∧
      l1dist (m.pageRank_ppv ppv uw).2
        (m.prStep uw (m.computeCoefs uw) ppv (m.pageRank_ppv ppv uw).2) <
        prThreshold) ∧
    (isolatedGraph.pageRank_ppv [1] false).2 = [1] := by
  have inv := built_inv m hb
  have hsrc := inv.edges_src
  have htgt := inv.edges_tgt
  have hres : (m.pageRank_ppv ppv uw).2 =
      m.prIter uw (m.computeCoefs uw) ppv prMaxIter ppv := by
    show (m.updateCoefs uw).prIter uw (m.updateCoefs uw).out_coefs ppv
        prMaxIter ppv = _
    rw [(coefok_updateCoefs m uw inv.coefs).2]
    exact prIter_congr (m.updateCoefs uw) m
      (updateCoefs_graph_fields m uw).1 (updateCoefs_graph_fields m uw).2.1
      uw (m.computeCoefs uw) ppv prMaxIter ppv
  have hlstep : (m.prStep uw (m.computeCoefs uw) ppv ppv).length =
      m.verts.length := prStep_length m uw _ ppv ppv
  have hnnstep : ∀ a ∈ m.prStep uw (m.computeCoefs uw) ppv ppv, 0 ≤ a :=
    prStep_nonneg m uw _ ppv ppv hpnn hpnn
      (getQ_computeCoefs_nonneg m uw hw) hw
  have hsstep : (m.prStep uw (m.computeCoefs uw) ppv ppv).sum = 1 := by
    rw [prStep_sum m uw ppv ppv hsrc htgt hw hpsum hplen hplen, hpsum]
    ring
  have hC : l1dist (m.prStep uw (m.computeCoefs uw) ppv ppv) ppv ≤ 2 := by
    have hb2 := l1dist_le_sums _ ppv m.verts.length hlstep hplen hnnstep hpnn
    rw [hsstep, hpsum] at hb2
    linarith
  obtain ⟨p, hplen2, hpsum2, _, hiter, hfix⟩ :=
    prIter_exit m uw ppv hsrc htgt hw hpsum hplen hpnn prMaxIter ppv 2
      (by norm_num [prMaxIter]) hplen hpsum hpnn hC
      (by
        show (2:ℚ) * damping ^ (prMaxIter - 1) < prThreshold
        have hix : prMaxIter - 1 = 99 := by norm_num [prMaxIter]
        rw [hix]
        exact damping_pow_small)
  refine ⟨⟨?_, ?_⟩, ?_⟩
  · rw [hres, hiter]
    rw [prStep_sum m uw ppv p hsrc htgt hw hpsum hplen hplen2, hpsum2]
    ring
  · rw [hres, hiter]
    have hcontr := prStep_contraction m uw ppv
      (m.prStep uw (m.computeCoefs uw) ppv p) p hsrc htgt hw hpsum hplen hpnn
      (prStep_length m uw _ ppv p) hplen2
    have h2 : l1dist
        (m.prStep uw (m.computeCoefs uw) ppv
          (m.prStep uw (m.computeCoefs uw) ppv p))
        (m.prStep uw (m.computeCoefs uw) ppv p) < damping * prThreshold :=
      lt_of_le_of_lt hcontr
        (mul_lt_mul_of_pos_left hfix (by norm_num [damping]))
    rw [l1dist_comm]
    refine lt_of_lt_of_le h2 ?_
    norm_num [damping, prThreshold]
  · exact pagerank_isolated isolatedGraph [1] false (by decide) (by decide)
      (by norm_num)

theorem claim4_pagerank_witness :
    ((claim1Graph.pageRank_ppv [1/3, 1/3, 1/3] false).2.sum = 1 ∧
      l1dist (claim1Graph.pageRank_ppv [1/3, 1/3, 1/3] false).2
        (claim1Graph.prStep false (claim1Graph.computeCoefs false)
          [1/3, 1/3, 1/3]
          (claim1Graph.pageRank_ppv [1/3, 1/3, 1/3] false).2) <
        prThreshold) ∧
    (isolatedGraph.pageRank_ppv [1] false).2 = [1] :=
  claim4_pagerank claim1Graph claim1Graph_built [1/3, 1/3, 1/3] false
    (by simp) (by decide) (by norm_num) (by norm_num)

/-! ## Dijkstra: table access lemmas -/

theorem listModify_length {α : Type} (l : List α) (f : α → α) :
    ∀ i : Nat, (listModify l i f).length = l.length := by
  induction l with
  | nil => intro i; rfl
  | cons a l ih =>
    intro i
    cases i with
    | zero => rfl
    | succ i => simp only [listModify, List.length_cons, ih i]

theorem listModify_getD_self {α : Type} (l : List α) (c d : α) :
    ∀ i : Nat, i < l.length → (listModify l i (fun _ => c)).getD i d = c := by
  induction l with
  | nil => intro i h; simp at h
  | cons a l ih =>
    intro i h
    cases i with
    | zero => rfl
    | succ i =>
      simp only [listModify, List.getD_cons_succ]
      exact ih i (by simpa using h)

theorem listModify_getD_ne {α : Type} (l : List α) (f : α → α) (d : α) :
    ∀ i j : Nat, i ≠ j → (listModify l i f).getD j d = l.getD j d := by
  induction l with
  | nil => intro i j h; cases i <;> rfl
  | cons a l ih =>
    intro i j h
    cases i with
    | zero =>
      cases j with
      | zero => exact absurd rfl h
      | succ j => rfl
    | succ i =>
      cases j with
      | zero => rfl
      | succ j =>
        simp only [listModify, List.getD_cons_succ]
        exact ih i j (by omega)

theorem getD_ge {α : Type} (l : List α) (d : α) :
    ∀ i : Nat, l.length ≤ i → l.getD i d = d := by
  induction l with
  | nil => intro i h; cases i <;> rfl
  | cons a l ih =>
    intro i h
    cases i with
    | zero => simp at h
    | succ i =>
      simp only [List.getD_cons_succ]
      exact ih i (by simpa using h)

theorem getD_replicate_lt {α : Type} (a d : α) :
    ∀ (n i : Nat), i < n → (List.replicate n a).getD i d = a := by
  intro n
  induction n with
  | zero => intro i h; omega
  | succ n ih =>
    intro i h
    cases i with
    | zero => rfl
    | succ i =>
      simp only [List.replicate_succ, List.getD_cons_succ]
      exact ih i (by omega)

/-! ## Dijkstra: state-transition case analysis -/

theorem relaxEdge_visited (u : Nat) (st : DState) (e : Edge) :
    (relaxEdge u st e).visited = st.visited := by
  unfold relaxEdge
  by_cases hu : e.esrc = u
  · rw [if_pos hu]
    cases getO st.dist u with
    | none => rfl
    | some qu =>
      cases getO st.dist e.etgt with
      | none => rfl
      | some qt =>
        dsimp only
        by_cases hlt : qu + e.eweight < qt
        · rw [if_pos hlt]
        · rw [if_neg hlt]
  · rw [if_neg hu]

theorem relaxOut_visited (u : Nat) :
    ∀ (es : List Edge) (st : DState),
      (es.foldl (relaxEdge u) st).visited = st.visited := by
  intro es
  induction es with
  | nil => intro st; rfl
  | cons e es ih =>
    intro st
    simp only [List.foldl_cons]
    rw [ih, relaxEdge_visited]

theorem relaxEdge_cases (u : Nat) (st : DState) (e : Edge) :
    (relaxEdge u st e = st ∧
      (e.esrc = u → ∀ qu, getO st.dist u = some qu →
        ∃ qv, getO st.dist e.etgt = some qv ∧ qv ≤ qu + e.eweight)) ∨
    (e.esrc = u ∧ ∃ qu, getO st.dist u = some qu ∧
      relaxEdge u st e =
        { dist := listModify st.dist e.etgt (fun _ => some (qu + e.eweight)),
          par := listModify st.par e.etgt (fun _ => some u),
          visited := st.visited } ∧
      (getO st.dist e.etgt = none ∨
        ∃ qv, getO st.dist e.etgt = some qv ∧ qu + e.eweight < qv)) := by
  unfold relaxEdge
  by_cases hu : e.esrc = u
  · rw [if_pos hu]
    cases hq : getO st.dist u with
    | none =>
      refine Or.inl ⟨rfl, ?_⟩
      intro _ qu hqu
      cases hqu
    | some qu =>
      cases ht : getO st.dist e.etgt with
      | none => exact Or.inr ⟨hu, qu, rfl, rfl, Or.inl rfl⟩
      | some qt =>
        dsimp only
        by_cases hlt : qu + e.eweight < qt
        · rw [if_pos hlt]
          exact Or.inr ⟨hu, qu, rfl, rfl, Or.inr ⟨qt, rfl, hlt⟩⟩
        · rw [if_neg hlt]
          refine Or.inl ⟨rfl, ?_⟩
          intro _ qu2 hqu2
          cases hqu2
          exact ⟨qt, rfl, le_of_not_lt hlt⟩
  · rw [if_neg hu]
    refine Or.inl ⟨rfl, ?_⟩
    intro he2
    exact absurd he2 hu

/-! ## Dijkstra: selection of the minimum, marking, counting -/

theorem pickMin_some_spec (n : Nat) (st : DState) (u : Nat)
    (h : pickMin n st = some u) :
    u < n ∧ getB st.visited u = false ∧ (getO st.dist u).isSome = true ∧
      ∀ x qx qu, x < n → getB st.visited x = false →
        getO st.dist x = some qx → getO st.dist u = some qu → qu ≤ qx := by
  have hmem : u ∈ dijkCandidates n st :=
    List.argmin_mem (show u ∈ (dijkCandidates n st).argmin (distVal st) by
      rw [Option.mem_def]; exact h)
  have hf := List.mem_filter.mp hmem
  have hrange := List.mem_range.mp hf.1
  have hprops := hf.2
  simp only [Bool.and_eq_true, Bool.not_eq_true'] at hprops
  refine ⟨hrange, hprops.1, hprops.2, ?_⟩
  intro x qx qu hx hxv hdx hdu
  have hxmem : x ∈ dijkCandidates n st := by
    refine List.mem_filter.mpr ⟨List.mem_range.mpr hx, ?_⟩
    simp [hxv, hdx]
  have hle := List.le_of_mem_argmin hxmem
    (show u ∈ (dijkCandidates n st).argmin (distVal st) by
      rw [Option.mem_def]; exact h)
  unfold distVal at hle
  rw [hdx, hdu] at hle
  simpa using hle

theorem pickMin_none_spec (n : Nat) (st : DState)
    (h : pickMin n st = none) :
    ∀ v, v < n → getB st.visited v = false → getO st.dist v = none := by
  intro v hv hvis
  by_contra hne
  have hsome : (getO st.dist v).isSome = true := Option.ne_none_iff_isSome.mp hne
  have hmem : v ∈ dijkCandidates n st := by
    refine List.mem_filter.mpr ⟨List.mem_range.mpr hv, ?_⟩
    simp [hvis, hsome]
  have hnil : dijkCandidates n st = [] := List.argmin_eq_none.mp h
  rw [hnil] at hmem
  cases hmem

theorem getB_setB_of_true (l : List Bool) (u v : Nat)
    (h : getB l v = true) : getB (setB l u) v = true := by
  by_cases huv : u = v
  · subst huv
    by_cases hlen : u < l.length
    · exact listModify_getD_self l true false u hlen
    · unfold setB getB
      unfold getB at h
      rw [getD_ge _ _ u (by omega)] at h
      cases h
  · unfold setB getB
    unfold getB at h
    rw [listModify_getD_ne l _ false u v huv]
    exact h

theorem getB_setB_self (l : List Bool) (u : Nat) (h : u < l.length) :
    getB (setB l u) u = true :=
  listModify_getD_self l true false u h

theorem getB_setB_ne (l : List Bool) (u v : Nat) (h : u ≠ v) :
    getB (setB l u) v = getB l v :=
  listModify_getD_ne l _ false u v h

theorem getB_setB_cases (l : List Bool) (u v : Nat)
    (h : getB (setB l u) v = true) : v = u ∨ getB l v = true := by
  by_cases huv : u = v
  · exact Or.inl huv.symm
  · rw [getB_setB_ne l u v huv] at h
    exact Or.inr h

theorem getO_ge (l : List (Option ℚ)) (v : Nat) (h : l.length ≤ v) :
    getO l v = none :=
  getD_ge l none v h

theorem count_false_pos : ∀ (l : List Bool) (v : Nat), v < l.length →
    l.getD v false = false → 0 < l.count false := by
  intro l
  induction l with
  | nil => intro v h; simp at h
  | cons b l ih =>
    intro v hv hget
    cases v with
    | zero =>
      simp only [List.getD_cons_zero] at hget
      subst hget
      simp [List.count_cons]
    | succ v =>
      simp only [List.getD_cons_succ] at hget
      have := ih v (by simpa using hv) hget
      simp only [List.count_cons]
      omega

theorem count_false_setB : ∀ (l : List Bool) (u : Nat), u < l.length →
    l.getD u false = false → (setB l u).count false + 1 = l.count false := by
  intro l
  induction l with
  | nil => intro u h; simp at h
  | cons b l ih =>
    intro u hu hget
    cases u with
    | zero =>
      simp only [List.getD_cons_zero] at hget
      subst hget
      simp [setB, listModify, List.count_cons]
    | succ u =>
      simp only [List.getD_cons_succ] at hget
      have hrec := ih u (by simpa using hu) hget
      simp only [setB, listModify, List.count_cons]
      simp only [setB] at hrec
      omega

/-! ## Dijkstra: table-update lemmas specialised to the state fields -/

theorem getO_modify_self (l : List (Option ℚ)) (c : Option ℚ) (i : Nat)
    (h : i < l.length) : getO (listModify l i (fun _ => c)) i = c :=
  listModify_getD_self l c none i h

theorem getO_modify_ne (l : List (Option ℚ)) (f : Option ℚ → Option ℚ)
    (i j : Nat) (h : i ≠ j) : getO (listModify l i f) j = getO l j :=
  listModify_getD_ne l f none i j h

theorem getP_modify_self (l : List (Option Nat)) (c : Option Nat) (i : Nat)
    (h : i < l.length) : getP (listModify l i (fun _ => c)) i = c :=
  listModify_getD_self l c none i h

theorem getP_modify_ne (l : List (Option Nat)) (f : Option Nat → Option Nat)
    (i j : Nat) (h : i ≠ j) : getP (listModify l i f) j = getP l j :=
  listModify_getD_ne l f none i j h

theorem getB_replicate_false (n v : Nat) :
    getB (List.replicate n false) v = false := by
  by_cases h : v < n
  · exact getD_replicate_lt false false n v h
  · exact getD_ge _ _ v (by simp; omega)

/-! ## Dijkstra: one edge relaxation preserves the invariant -/

theorem relaxEdge_preserve (m : Mcr) (src u : Nat) (st : DState) (e : Edge)
    (he : e ∈ m.edges) (hte : e.etgt < m.verts.length)
    (hwe : 0 ≤ e.eweight)
    (hinv : DInv m src st) (hu : getB st.visited u = true)
    (humax : UMax u st) :
    DInv m src (relaxEdge u st e) ∧ UMax u (relaxEdge u st e) ∧
      (∀ t, getB st.visited t = true →
        getO (relaxEdge u st e).dist t = getO st.dist t) ∧
      (∀ v qv, getO st.dist v = some qv →
        ∃ qv2, getO (relaxEdge u st e).dist v = some qv2 ∧ qv2 ≤ qv) ∧
      (e.esrc = u →
        ∃ qu qv, getO (relaxEdge u st e).dist u = some qu ∧
          getO (relaxEdge u st e).dist e.etgt = some qv ∧
          qv ≤ qu + e.eweight) := by
  rcases relaxEdge_cases u st e with ⟨heq, hni⟩ | ⟨hsu, qu, hqu, heq, himp⟩
  · rw [heq]
    refine ⟨hinv, humax, fun t _ => rfl,
      fun v qv h => ⟨qv, h, le_refl qv⟩, ?_⟩
    intro hsu
    obtain ⟨qu, hqu⟩ := hinv.vd u hu
    obtain ⟨qv, hqv, hle⟩ := hni hsu qu hqu
    exact ⟨qu, qv, hqu, hqv, hle⟩
  · have hqu0 : 0 ≤ qu := hinv.nonneg u qu hqu
    have htgt_unvis : getB st.visited e.etgt = false := by
      cases hbt : getB st.visited e.etgt with
      | false => rfl
      | true =>
        obtain ⟨qv', hqv'⟩ := hinv.vd e.etgt hbt
        rcases himp with hn | ⟨qv, hqv, hlt⟩
        · rw [hn] at hqv'; cases hqv'
        · rw [hqv] at hqv'
          injection hqv' with hqq
          have hle := humax e.etgt qv qu hbt hqv hqu
          exact absurd hlt (by linarith)
    have hnvis : ∀ t, getB st.visited t = true → t ≠ e.etgt := by
      intro t ht hh
      rw [hh, htgt_unvis] at ht
      exact Bool.noConfusion ht
    have hu_ne : u ≠ e.etgt := hnvis u hu
    have htgt_ne_src : e.etgt ≠ src := by
      intro hh
      rcases himp with hn | ⟨qv, hqv, hlt⟩
      · rw [hh, hinv.src_dist] at hn; cases hn
      · rw [hh, hinv.src_dist] at hqv
        injection hqv with hqq
        rw [← hqq] at hlt
        linarith
    have hdt : getO (relaxEdge u st e).dist e.etgt = some (qu + e.eweight) := by
      rw [heq]
      exact getO_modify_self _ _ _ (by rw [hinv.len_d]; exact hte)
    have hnd : ∀ v, v ≠ e.etgt →
        getO (relaxEdge u st e).dist v = getO st.dist v := by
      intro v hv
      rw [heq]
      exact getO_modify_ne _ _ _ _ (fun hh => hv hh.symm)
    have hpt : getP (relaxEdge u st e).par e.etgt = some u := by
      rw [heq]
      exact getP_modify_self _ _ _ (by rw [hinv.len_p]; exact hte)
    have hnp : ∀ v, v ≠ e.etgt →
        getP (relaxEdge u st e).par v = getP st.par v := by
      intro v hv
      rw [heq]
      exact getP_modify_ne _ _ _ _ (fun hh => hv hh.symm)
    have hvis2 : (relaxEdge u st e).visited = st.visited :=
      relaxEdge_visited u st e
    refine ⟨⟨?_, ?_, ?_, ?_, ?_, ?_, ?_, ?_, ?_, ?_, ?_⟩, ?_, ?_, ?_, ?_⟩
    · rw [heq]
      show (listModify st.dist e.etgt _).length = m.verts.length
      rw [listModify_length]
      exact hinv.len_d
    · rw [heq]
      show (listModify st.par e.etgt _).length = m.verts.length
      rw [listModify_length]
      exact hinv.len_p
    · rw [hvis2]
      exact hinv.len_v
    · rw [hnd src (Ne.symm htgt_ne_src)]
      exact hinv.src_dist
    · rw [hnp src (Ne.symm htgt_ne_src)]
      exact hinv.src_par
    · intro v q h
      by_cases hv : v = e.etgt
      · rw [hv, hdt] at h
        injection h with hq
        rw [← hq]
        linarith
      · rw [hnd v hv] at h
        exact hinv.nonneg v q h
    · intro v q h
      by_cases hv : v = e.etgt
      · subst hv
        rw [hdt] at h
        injection h with hq
        rw [← hq]
        exact IsPath.step e (hinv.sound u qu hqu) he hsu
      · rw [hnd v hv] at h
        exact hinv.sound v q h
    · intro t x qt qx hvt hvx hdt2 hdx2
      rw [hvis2] at hvt hvx
      rw [hnd t (hnvis t hvt)] at hdt2
      by_cases hx : x = e.etgt
      · rw [hx, hdt] at hdx2
        injection hdx2 with hqx
        have h1 := humax t qt qu hvt hdt2 hqu
        rw [← hqx]
        linarith
      · rw [hnd x hx] at hdx2
        exact hinv.vu t x qt qx hvt hvx hdt2 hdx2
    · intro v hv
      rw [hvis2] at hv
      rw [hnd v (hnvis v hv)]
      exact hinv.vd v hv
    · intro v hvsrc q hdv
      by_cases hv : v = e.etgt
      · subst hv
        rw [hdt] at hdv
        injection hdv with hq
        refine ⟨u, e, qu, hpt, ?_, he, hsu, rfl, ?_, hq.symm⟩
        · rw [hvis2]; exact hu
        · rw [hnd u hu_ne]; exact hqu
      · rw [hnd v hv] at hdv
        obtain ⟨u2, e2, qu2, hp2, hvu2, he2, hs2, ht2, hdu2, hq2⟩ :=
          hinv.pp v hvsrc q hdv
        refine ⟨u2, e2, qu2, ?_, ?_, he2, hs2, ht2, ?_, hq2⟩
        · rw [hnp v hv]; exact hp2
        · rw [hvis2]; exact hvu2
        · rw [hnd u2 (hnvis u2 hvu2)]; exact hdu2
    · intro v u2 hvsrc hp2
      by_cases hv : v = e.etgt
      · subst hv
        exact ⟨qu + e.eweight, hdt⟩
      · rw [hnp v hv] at hp2
        obtain ⟨q, hq⟩ := hinv.pd v u2 hvsrc hp2
        exact ⟨q, by rw [hnd v hv]; exact hq⟩
    · intro t qt qu2 hvt hdt2 hdu2
      rw [hvis2] at hvt
      rw [hnd t (hnvis t hvt)] at hdt2
      rw [hnd u hu_ne, hqu] at hdu2
      injection hdu2 with h2
      rw [← h2]
      exact humax t qt qu hvt hdt2 hqu
    · intro t ht
      exact hnd t (hnvis t ht)
    · intro v qv hv
      by_cases hc : v = e.etgt
      · subst hc
        rcases himp with hn | ⟨qv3, hq3, hlt3⟩
        · rw [hn] at hv; cases hv
        · rw [hq3] at hv
          injection hv with h4
          refine ⟨qu + e.eweight, hdt, ?_⟩
          rw [← h4]
          linarith
      · exact ⟨qv, by rw [hnd v hc]; exact hv, le_refl qv⟩
    · intro _
      exact ⟨qu, qu + e.eweight, by rw [hnd u hu_ne]; exact hqu, hdt,
        le_refl _⟩

/-! ## Dijkstra: relaxing a whole edge list -/

theorem relaxList_preserve (m : Mcr) (src u : Nat)
    (hb : ∀ e ∈ m.edges, e.esrc < m.verts.length ∧ e.etgt < m.verts.length)
    (hw : ∀ e ∈ m.edges, 0 ≤ e.eweight) :
    ∀ (es : List Edge) (st : DState), (∀ e ∈ es, e ∈ m.edges) →
      DInv m src st → getB st.visited u = true → UMax u st →
      DInv m src (es.foldl (relaxEdge u) st) ∧
      UMax u (es.foldl (relaxEdge u) st) ∧
      (∀ t, getB st.visited t = true →
        getO (es.foldl (relaxEdge u) st).dist t = getO st.dist t) ∧
      (∀ v qv, getO st.dist v = some qv →
        ∃ qv2, getO (es.foldl (relaxEdge u) st).dist v = some qv2 ∧
          qv2 ≤ qv) ∧
      (∀ e ∈ es, e.esrc = u →
        ∃ qu qv, getO (es.foldl (relaxEdge u) st).dist u = some qu ∧
          getO (es.foldl (relaxEdge u) st).dist e.etgt = some qv ∧
          qv ≤ qu + e.eweight) := by
  intro es
  induction es with
  | nil =>
    intro st _ hinv hu humax
    exact ⟨hinv, humax, fun t _ => rfl,
      fun v qv h => ⟨qv, h, le_refl qv⟩, fun e he => absurd he (by simp)⟩
  | cons e es ih =>
    intro st hmem hinv hu humax
    have hem : e ∈ m.edges := hmem e (by simp)
    obtain ⟨hinv1, humax1, hc1, hd1, he1⟩ :=
      relaxEdge_preserve m src u st e hem (hb e hem).2 (hw e hem) hinv hu
        humax
    have hvis1 : (relaxEdge u st e).visited = st.visited :=
      relaxEdge_visited u st e
    have hu1 : getB (relaxEdge u st e).visited u = true := by
      rw [hvis1]; exact hu
    obtain ⟨hinv2, humax2, hc2, hd2, he2⟩ :=
      ih (relaxEdge u st e) (fun e2 h2 => hmem e2 (by simp [h2])) hinv1 hu1
        humax1
    simp only [List.foldl_cons]
    refine ⟨hinv2, humax2, ?_, ?_, ?_⟩
    · intro t ht
      rw [hc2 t (by rw [hvis1]; exact ht), hc1 t ht]
    · intro v qv hv
      obtain ⟨q1, hq1, hle1⟩ := hd1 v qv hv
      obtain ⟨q2, hq2, hle2⟩ := hd2 v q1 hq1
      exact ⟨q2, hq2, le_trans hle2 hle1⟩
    · intro e2 h2 hs2
      rcases List.mem_cons.mp h2 with h2 | h2
      · subst h2
        obtain ⟨qu1, qv1, hqu1, hqv1, hle1⟩ := he1 hs2
        have hqu2 := hc2 u hu1
        rw [hqu1] at hqu2
        obtain ⟨qv2, hqv2, hle2⟩ := hd2 _ qv1 hqv1
        exact ⟨qu1, qv2, hqu2, hqv2, le_trans hle2 hle1⟩
      · exact he2 e2 h2 hs2

/-! ## Dijkstra: one loop iteration preserves the invariant -/

theorem dijkStep_preserve (m : Mcr) (src u : Nat) (st : DState)
    (hb : ∀ e ∈ m.edges, e.esrc < m.verts.length ∧ e.etgt < m.verts.length)
    (hw : ∀ e ∈ m.edges, 0 ≤ e.eweight)
    (hinv : DInv m src st) (hrel : Relaxed m st)
    (hpick : pickMin m.size st = some u) :
    DInv m src (relaxOut m u (markVisited u st)) ∧
      Relaxed m (relaxOut m u (markVisited u st)) := by
  obtain ⟨hun, huv, husome, humin⟩ := pickMin_some_spec m.size st u hpick
  obtain ⟨qu, hqu⟩ := Option.isSome_iff_exists.mp husome
  have hulen : u < st.visited.length := by rw [hinv.len_v]; exact hun
  have hmvis : (markVisited u st).visited = setB st.visited u := rfl
  have hmd : (markVisited u st).dist = st.dist := rfl
  have hmp : (markVisited u st).par = st.par := rfl
  have hinv1 : DInv m src (markVisited u st) := by
    refine ⟨hinv.len_d, hinv.len_p, ?_, hinv.src_dist, hinv.src_par,
      hinv.nonneg, hinv.sound, ?_, ?_, ?_, hinv.pd⟩
    · show (setB st.visited u).length = m.verts.length
      unfold setB
      rw [listModify_length]
      exact hinv.len_v
    · intro t x qt qx hvt hvx hdt hdx
      rw [hmvis] at hvt hvx
      rw [hmd] at hdt hdx
      have hxu : x ≠ u := by
        intro hh
        rw [hh, getB_setB_self st.visited u hulen] at hvx
        exact Bool.noConfusion hvx
      rw [getB_setB_ne st.visited u x (fun hh => hxu hh.symm)] at hvx
      rcases getB_setB_cases st.visited u t hvt with htu | hvt2
      · subst htu
        rw [hqu] at hdt
        injection hdt with h2
        have hxlt : x < m.size := by
          by_contra hcon
          rw [getO_ge st.dist x (by
            have hms : m.verts.length = m.size := rfl
            rw [hinv.len_d, hms]
            omega)] at hdx
          cases hdx
        have := humin x qx qu hxlt hvx hdx hqu
        rw [← h2]
        exact this
      · exact hinv.vu t x qt qx hvt2 hvx hdt hdx
    · intro v hv
      rw [hmvis] at hv
      rw [hmd]
      rcases getB_setB_cases st.visited u v hv with hvu | hv2
      · subst hvu
        exact ⟨qu, hqu⟩
      · exact hinv.vd v hv2
    · intro v hvsrc q hdv
      obtain ⟨u2, e2, qu2, hp2, hvu2, he2, hs2, ht2, hdu2, hq2⟩ :=
        hinv.pp v hvsrc q hdv
      exact ⟨u2, e2, qu2, hp2, getB_setB_of_true st.visited u u2 hvu2, he2,
        hs2, ht2, hdu2, hq2⟩
  have humax1 : UMax u (markVisited u st) := by
    intro t qt qu2 hvt hdt hdu2
    rw [hmvis] at hvt
    rw [hmd] at hdt hdu2
    rw [hqu] at hdu2
    injection hdu2 with h2
    rcases getB_setB_cases st.visited u t hvt with htu | hvt2
    · subst htu
      rw [hqu] at hdt
      injection hdt with h3
      rw [← h2, ← h3]
    · rw [← h2]
      exact hinv.vu t u qt qu hvt2 huv hdt hqu
  have hu1 : getB (markVisited u st).visited u = true :=
    getB_setB_self st.visited u hulen
  obtain ⟨hinv2, _, hc2, hd2, he2⟩ :=
    relaxList_preserve m src u hb hw m.edges (markVisited u st)
      (fun _ h => h) hinv1 hu1 humax1
  refine ⟨hinv2, ?_⟩
  intro t ht e he hs
  have hvfold : (relaxOut m u (markVisited u st)).visited =
      (markVisited u st).visited := relaxOut_visited u m.edges _
  rw [hvfold, hmvis] at ht
  rcases getB_setB_cases st.visited u t ht with htu | hvt2
  · subst htu
    exact he2 e he hs
  · obtain ⟨qt2, qv2, hqt2, hqv2, hle2⟩ := hrel t hvt2 e he hs
    have hct := hc2 t ht
    rw [hmd, hqt2] at hct
    obtain ⟨qv3, hqv3, hle3⟩ := hd2 e.etgt qv2 (by rw [hmd]; exact hqv2)
    exact ⟨qt2, qv3, hct, hqv3, le_trans hle3 hle2⟩

/-! ## Dijkstra: the main loop -/

theorem dijkLoop_preserve (m : Mcr) (src : Nat)
    (hb : ∀ e ∈ m.edges, e.esrc < m.verts.length ∧ e.etgt < m.verts.length)
    (hw : ∀ e ∈ m.edges, 0 ≤ e.eweight) :
    ∀ (fuel : Nat) (st : DState), DInv m src st → Relaxed m st →
      DInv m src (dijkLoop m fuel st) ∧ Relaxed m (dijkLoop m fuel st) := by
  intro fuel
  induction fuel with
  | zero => intro st hinv hrel; exact ⟨hinv, hrel⟩
  | succ fuel ih =>
    intro st hinv hrel
    unfold dijkLoop
    cases hpick : pickMin m.size st with
    | none => exact ⟨hinv, hrel⟩
    | some u =>
      obtain ⟨h1, h2⟩ := dijkStep_preserve m src u st hb hw hinv hrel hpick
      exact ih _ h1 h2

theorem dijkLoop_exhausts (m : Mcr) :
    ∀ (fuel : Nat) (st : DState), st.visited.length = m.size →
      st.visited.count false ≤ fuel →
      pickMin m.size (dijkLoop m fuel st) = none := by
  intro fuel
  induction fuel with
  | zero =>
    intro st hlen hcnt
    have hall : ∀ v, v < m.size → getB st.visited v = true := by
      intro v hv
      cases hbv : getB st.visited v with
      | true => rfl
      | false =>
        have := count_false_pos st.visited v (by rw [hlen]; exact hv) hbv
        omega
    have hnil : dijkCandidates m.size st = [] := by
      refine List.eq_nil_iff_forall_not_mem.mpr ?_
      intro v hvmem
      have hf := List.mem_filter.mp hvmem
      have hr := List.mem_range.mp hf.1
      have hp := hf.2
      simp only [Bool.and_eq_true, Bool.not_eq_true'] at hp
      rw [hall v hr] at hp
      exact Bool.noConfusion hp.1
    show (dijkCandidates m.size st).argmin (distVal st) = none
    rw [hnil]
    rfl
  | succ fuel ih =>
    intro st hlen hcnt
    unfold dijkLoop
    cases hpick : pickMin m.size st with
    | none => exact hpick
    | some u =>
      obtain ⟨hun, huv, _, _⟩ := pickMin_some_spec m.size st u hpick
      have hulen : u < st.visited.length := by rw [hlen]; exact hun
      have hcnt2 := count_false_setB st.visited u hulen huv
      have hv2 : (relaxOut m u (markVisited u st)).visited =
          setB st.visited u := relaxOut_visited u m.edges _
      apply ih
      · rw [hv2]
        show (setB st.visited u).length = m.size
        unfold setB
        rw [listModify_length]
        exact hlen
      · rw [hv2]
        omega

/-! ## Dijkstra: the initial state -/

theorem dijkInit_dist (n src : Nat) :
    ∀ v q, getO (dijkInit n src).dist v = some q → v = src ∧ q = 0 := by
  intro v q h
  by_cases hv : v = src
  · refine ⟨hv, ?_⟩
    subst hv
    by_cases hs : v < n
    · have h0 : getO (dijkInit n v).dist v = some 0 := by
        show getO (listModify (List.replicate n none) v _) v = some 0
        exact getO_modify_self _ _ _ (by simp [hs])
      rw [h0] at h
      injection h with h
      exact h.symm
    · have hlen : (dijkInit n v).dist.length = n := by
        show (listModify (List.replicate n none) v _).length = n
        rw [listModify_length]
        simp
      rw [getO_ge (dijkInit n v).dist v (by rw [hlen]; omega)] at h
      cases h
  · have h2 : getO (dijkInit n src).dist v =
        getO (List.replicate n none) v := by
      show getO (listModify (List.replicate n none) src _) v = _
      exact getO_modify_ne _ _ _ _ (fun hh => hv hh.symm)
    rw [h2] at h
    by_cases hvn : v < n
    · have h3 : getO (List.replicate n none) v = none :=
        getD_replicate_lt none none n v hvn
      rw [h3] at h
      cases h
    · rw [getO_ge _ _ (by simp; omega)] at h
      cases h

theorem dijkInit_par (n src : Nat) :
    ∀ v, v ≠ src → getP (dijkInit n src).par v = none := by
  intro v hv
  have h2 : getP (dijkInit n src).par v =
      getP (List.replicate n none) v := by
    show getP (listModify (List.replicate n none) src _) v = _
    exact getP_modify_ne _ _ _ _ (fun hh => hv hh.symm)
  rw [h2]
  by_cases hvn : v < n
  · exact getD_replicate_lt none none n v hvn
  · exact getD_ge _ _ v (by simp; omega)

theorem dijkInit_inv (m : Mcr) (src : Nat) (hsrc : src < m.verts.length) :
    DInv m src (dijkInit m.verts.length src) ∧
      Relaxed m (dijkInit m.verts.length src) := by
  have hvisF : ∀ t, getB (dijkInit m.verts.length src).visited t = false :=
    fun t => getB_replicate_false m.verts.length t
  constructor
  · refine ⟨?_, ?_, ?_, ?_, ?_, ?_, ?_, ?_, ?_, ?_, ?_⟩
    · show (listModify (List.replicate m.verts.length none) src _).length = _
      rw [listModify_length]
      simp
    · show (listModify (List.replicate m.verts.length none) src _).length = _
      rw [listModify_length]
      simp
    · show (List.replicate m.verts.length false).length = _
      simp
    · show getO (listModify (List.replicate m.verts.length none) src _) src =
        some 0
      exact getO_modify_self _ _ _ (by simp [hsrc])
    · show getP (listModify (List.replicate m.verts.length none) src _) src =
        some src
      exact getP_modify_self _ _ _ (by simp [hsrc])
    · intro v q h
      obtain ⟨_, hq⟩ := dijkInit_dist m.verts.length src v q h
      rw [hq]
    · intro v q h
      obtain ⟨hv, hq⟩ := dijkInit_dist m.verts.length src v q h
      subst hv
      rw [hq]
      exact IsPath.refl
    · intro t x qt qx hvt _ _ _
      rw [hvisF t] at hvt
      exact Bool.noConfusion hvt
    · intro v hv
      rw [hvisF v] at hv
      exact Bool.noConfusion hv
    · intro v hvsrc q hdv
      obtain ⟨hv, _⟩ := dijkInit_dist m.verts.length src v q hdv
      exact absurd hv hvsrc
    · intro v u2 hvsrc hp2
      rw [dijkInit_par m.verts.length src v hvsrc] at hp2
      cases hp2
  · intro t ht
    rw [hvisF t] at ht
    exact Bool.noConfusion ht

/-! ## Dijkstra: minimality of the recorded distances -/

theorem isPath_nonneg (m : Mcr) (src : Nat)
    (hw : ∀ e ∈ m.edges, 0 ≤ e.eweight) :
    ∀ v c, IsPath m src v c → 0 ≤ c := by
  intro v c hpath
  induction hpath with
  | refl => exact le_refl 0
  | step e hp hmem hse ih =>
    have := hw e hmem
    linarith

theorem dist_le_path (m : Mcr) (src : Nat) (st : DState)
    (hb : ∀ e ∈ m.edges, e.esrc < m.verts.length ∧ e.etgt < m.verts.length)
    (hinv : DInv m src st) (hrel : Relaxed m st)
    (hdone : ∀ v, v < m.size → getB st.visited v = false →
      getO st.dist v = none) :
    ∀ v c, IsPath m src v c → ∃ q, getO st.dist v = some q ∧ q ≤ c := by
  intro v c hpath
  induction hpath with
  | refl => exact ⟨0, hinv.src_dist, le_refl 0⟩
  | step e hp hmem hse ih =>
    obtain ⟨qu, hqu, hlequ⟩ := ih
    rw [← hse] at hqu
    have hult : e.esrc < m.size := (hb e hmem).1
    have hvisu : getB st.visited e.esrc = true := by
      cases hbv : getB st.visited e.esrc with
      | true => rfl
      | false =>
        rw [hdone e.esrc hult hbv] at hqu
        cases hqu
    obtain ⟨qu2, qv, hqu2, hqv, hlev⟩ := hrel e.esrc hvisu e hmem rfl
    rw [hqu] at hqu2
    injection hqu2 with h2
    refine ⟨qv, hqv, ?_⟩
    rw [← h2] at hlev
    linarith

/-! ## Dijkstra: facts about the fully run loop -/

theorem dijk_final (m : Mcr) (src : Nat)
    (hsrc : src < m.verts.length)
    (hb : ∀ e ∈ m.edges, e.esrc < m.verts.length ∧ e.etgt < m.verts.length)
    (hw : ∀ e ∈ m.edges, 0 ≤ e.eweight) :
    DInv m src (dijkLoop m m.size (dijkInit m.size src)) ∧
      Relaxed m (dijkLoop m m.size (dijkInit m.size src)) ∧
      ∀ v, v < m.size →
        getB (dijkLoop m m.size (dijkInit m.size src)).visited v = false →
        getO (dijkLoop m m.size (dijkInit m.size src)).dist v = none := by
  obtain ⟨hi1, hi2⟩ := dijkInit_inv m src hsrc
  obtain ⟨hf1, hf2⟩ :=
    dijkLoop_preserve m src hb hw m.size (dijkInit m.size src) hi1 hi2
  have hexh : pickMin m.size (dijkLoop m m.size (dijkInit m.size src)) =
      none := by
    apply dijkLoop_exhausts
    · show (List.replicate m.size false).length = m.size
      simp
    · show (List.replicate m.size false).count false ≤ m.size
      simp
  exact ⟨hf1, hf2, pickMin_none_spec m.size _ hexh⟩

/-- **C7.** Dijkstra single-source shortest paths: on every graph whose
edges have in-range endpoints and non-negative weights and whose source
exists, `dijkstra src` succeeds, records the source as its own parent, and
every reached vertex `v` holds a parent `u` that is `v`'s predecessor on a
minimum-weight discovered path: some edge `u → v` closes a path from `src`
whose total weight is the recorded distance of `v`, and that weight is no
larger than the weight of any path from `src` to `v`; in particular, on the
triangle A→B (2), A→C (5), B→C (1), `dijkstra A` makes B the parent of
C. -/
theorem claim7_dijkstra (m : Mcr) (src : Nat)
    (hsrc : src < m.verts.length)
    (hb : ∀ e ∈ m.edges, e.esrc < m.verts.length ∧ e.etgt < m.verts.length)
    (hw : ∀ e ∈ m.edges, 0 ≤ e.eweight) :
    ((m.dijkstra src).1 = true ∧
      getP (m.dijkstra src).2 src = some src ∧
      ∀ v, v ≠ src → ∀ u, getP (m.dijkstra src).2 v = some u →
        ∃ e qu, e ∈ m.edges ∧ e.esrc = u ∧ e.etgt = v ∧
          getO (dijkLoop m m.size (dijkInit m.size src)).dist u = some qu ∧
          getO (dijkLoop m m.size (dijkInit m.size src)).dist v =
            some (qu + e.eweight) ∧
          IsPath m src v (qu + e.eweight) ∧
          ∀ c, IsPath m src v c → qu + e.eweight ≤ c) ∧
    getP (dijkGraph.dijkstra 0).2 2 = some 1 := by
  obtain ⟨hf1, hf2, hf3⟩ := dijk_final m src hsrc hb hw
  have hsize : src < m.size := hsrc
  have hres : (m.dijkstra src).2 =
      (dijkLoop m m.size (dijkInit m.size src)).par := by
    unfold Mcr.dijkstra
    rw [if_pos hsize]
  have hok : (m.dijkstra src).1 = true := by
    unfold Mcr.dijkstra
    rw [if_pos hsize]
  refine ⟨⟨hok, by rw [hres]; exact hf1.src_par, ?_⟩, ?_⟩
  · intro v hvsrc u hpv
    rw [hres] at hpv
    obtain ⟨q, hq⟩ := hf1.pd v u hvsrc hpv
    obtain ⟨u2, e, qu, hp2, hvis2, he2, hs2, ht2, hqu2, hqeq⟩ :=
      hf1.pp v hvsrc q hq
    rw [hpv] at hp2
    injection hp2 with h2
    subst h2
    refine ⟨e, qu, he2, hs2, ht2, hqu2, ?_, ?_, ?_⟩
    · rw [← hqeq]
      exact hq
    · rw [← hqeq]
      exact hf1.sound v q hq
    · intro c hc
      obtain ⟨q2, hq2, hle2⟩ := dist_le_path m src _ hb hf1 hf2 hf3 v c hc
      rw [hq] at hq2
      injection hq2 with h3
      rw [← hqeq, h3]
      exact hle2
  · have hE : dijkGraph.edges =
        [⟨0, 1, 2, 0⟩, ⟨0, 2, 5, 0⟩, ⟨1, 2, 1, 0⟩] := by decide
    have hb2 : ∀ e ∈ dijkGraph.edges,
        e.esrc < dijkGraph.verts.length ∧
          e.etgt < dijkGraph.verts.length := by decide
    have hw2 : ∀ e ∈ dijkGraph.edges, 0 ≤ e.eweight := by decide
    have hs0 : (0 : Nat) < dijkGraph.verts.length := by decide
    obtain ⟨hg1, hg2, hg3⟩ := dijk_final dijkGraph 0 hs0 hb2 hw2
    have hs0s : (0 : Nat) < dijkGraph.size := hs0
    have hres2 : (dijkGraph.dijkstra 0).2 =
        (dijkLoop dijkGraph dijkGraph.size
          (dijkInit dijkGraph.size 0)).par := by
      unfold Mcr.dijkstra
      rw [if_pos hs0s]
    have hpath1 : IsPath dijkGraph 0 1 ((0 : ℚ) + 2) :=
      IsPath.step ⟨0, 1, 2, 0⟩ IsPath.refl (by decide) rfl
    have hpath2 : IsPath dijkGraph 0 2 (((0 : ℚ) + 2) + 1) :=
      IsPath.step ⟨1, 2, 1, 0⟩ hpath1 (by decide) rfl
    obtain ⟨q, hq, hle⟩ :=
      dist_le_path dijkGraph 0 _ hb2 hg1 hg2 hg3 2 (((0 : ℚ) + 2) + 1)
        hpath2
    obtain ⟨u, e, qu, hpu, hvisu, heu, hsu, htu, hqu, hqeq⟩ :=
      hg1.pp 2 (by decide) q hq
    rw [hE] at heu
    simp only [List.mem_cons, List.not_mem_nil, or_false] at heu
    rcases heu with he1 | he2 | he3
    · subst he1
      exact absurd (show (1 : Nat) = 2 from htu) (by decide)
    · subst he2
      have hsu2 : (0 : Nat) = u := hsu
      have hqeq2 : q = qu + 5 := hqeq
      rw [← hsu2] at hqu
      rw [hg1.src_dist] at hqu
      injection hqu with hqu3
      rw [hqeq2, ← hqu3] at hle
      norm_num at hle
    · subst he3
      have hsu2 : (1 : Nat) = u := hsu
      rw [hres2]
      rw [← hsu2] at hpu
      exact hpu

theorem claim7_dijkstra_witness :
    ((0 : Nat) < dijkGraph.verts.length) ∧
      (((dijkGraph.dijkstra 0).1 = true ∧
        getP (dijkGraph.dijkstra 0).2 0 = some 0 ∧
        ∀ v, v ≠ 0 → ∀ u, getP (dijkGraph.dijkstra 0).2 v = some u →
          ∃ e qu, e ∈ dijkGraph.edges ∧ e.esrc = u ∧ e.etgt = v ∧
            getO (dijkLoop dijkGraph dijkGraph.size
              (dijkInit dijkGraph.size 0)).dist u = some qu ∧
            getO (dijkLoop dijkGraph dijkGraph.size
              (dijkInit dijkGraph.size 0)).dist v = some (qu + e.eweight) ∧
            IsPath dijkGraph 0 v (qu + e.eweight) ∧
            ∀ c, IsPath dijkGraph 0 v c → qu + e.eweight ≤ c) ∧
        getP (dijkGraph.dijkstra 0).2 2 = some 1) :=
  ⟨by decide, claim7_dijkstra dijkGraph 0 (by decide) (by decide)
    (by decide)⟩

end Ukb
